import Mathlib

/-!
Shallow embedding of the interactive statement assembler of gsmate
(package `client`: the `Stmt` buffer, its lexical sub-scanners, the
prefix classifier and the rune-buffer primitives), together with
theorems settling the frozen claims about it.

Go runes are modelled as `Char`, rune slices as `List Char`, and the
half-open scan ranges `[i, end)` keep the explicit `e` bound of the
source.  The Go `end` parameter is spelled `e` (`end` is reserved in
Lean).  Out-of-range reads go through `grab`, which returns the rune 0
exactly as in the source.
-/

set_option maxHeartbeats 1000000

namespace Gsmate

/-- The zero rune, returned by `grab` for out-of-range reads and used as
the "no quote" marker in the source. -/
def NUL : Char := '\x00'

/-- Go `unicode.IsControl`: true exactly on the Latin-1 `Cc` code points
(U+0000..U+001F and U+007F..U+009F); false beyond Latin-1. -/
def isControl (c : Char) : Bool :=
  c.toNat ≤ 0x1F || (0x7F ≤ c.toNat && c.toNat ≤ 0x9F)

/-- Go `unicode.IsSpace`: the White_Space property (Latin-1 fast path
plus the non-Latin-1 White_Space code points). -/
def isSpace (c : Char) : Bool :=
  (0x9 ≤ c.toNat && c.toNat ≤ 0xD) || c.toNat = 0x20 || c.toNat = 0x85 || c.toNat = 0xA0 ||
  c.toNat = 0x1680 || (0x2000 ≤ c.toNat && c.toNat ≤ 0x200A) ||
  c.toNat = 0x2028 || c.toNat = 0x2029 || c.toNat = 0x202F || c.toNat = 0x205F || c.toNat = 0x3000

/-- Go `unicode.IsLetter`, restricted to the rune ranges this code base
exercises: ASCII letters, the Latin-1 letters, and the CJK ideographs
appearing in the test fixtures. -/
def isLetter (c : Char) : Bool :=
  (0x41 ≤ c.toNat && c.toNat ≤ 0x5A) || (0x61 ≤ c.toNat && c.toNat ≤ 0x7A) ||
  c.toNat = 0xAA || c.toNat = 0xB5 || c.toNat = 0xBA ||
  (0xC0 ≤ c.toNat && c.toNat ≤ 0xFF && c.toNat ≠ 0xD7 && c.toNat ≠ 0xF7) ||
  (0x4E00 ≤ c.toNat && c.toNat ≤ 0x9FFF)

/-- Go `unicode.IsNumber`, restricted likewise: ASCII digits and the
Latin-1 number code points. -/
def isNumber (c : Char) : Bool :=
  (0x30 ≤ c.toNat && c.toNat ≤ 0x39) ||
  c.toNat = 0xB2 || c.toNat = 0xB3 || c.toNat = 0xB9 ||
  (0xBC ≤ c.toNat && c.toNat ≤ 0xBE)

/-- Go `unicode.ToUpper`, restricted likewise: the ASCII mapping, and
the identity beyond ASCII (the letters the tests feed through it are
CJK ideographs, which Go maps to themselves). -/
def toUpper (c : Char) : Char :=
  if 0x61 ≤ c.toNat ∧ c.toNat ≤ 0x7A then Char.ofNat (c.toNat - 32) else c

/-- `IsSpaceOrControl` from the source: space or control character. -/
def IsSpaceOrControl (c : Char) : Bool := isSpace c || isControl c

/-- Go slice expression `r[a:b]`. -/
def listSlice (r : List Char) (a b : Nat) : List Char := (r.take b).drop a

/-- `grab` grabs `i` from `r`, or returns 0 if `i >= e`. -/
def grab (r : List Char) (i e : Nat) : Char :=
  if i < e then r.getD i NUL else NUL

/-!
The scanning loops of the source advance an index `i` toward the range
bound `e`; in Lean each is written with a structurally-recursive fuel
argument so that all definitions compute by kernel reduction.  Every
wrapper passes `e + 1 - i` units of fuel, which never runs out: one
unit is consumed per iteration while `i` advances by at least one, so
`e < fuel + i` is invariant, and when fuel reaches zero the index is
already past the range and the zero-fuel value coincides with the
loop's exit value.
-/

/-- The loop of `findSpace`. -/
def findSpaceAux (r : List Char) (e : Nat) : Nat → Nat → Nat × Bool
  | 0, i => (i, false)
  | fuel+1, i =>
    if i < e then
      if IsSpaceOrControl (r.getD i NUL) then (i, true) else findSpaceAux r e fuel (i+1)
    else (i, false)

/-- `findSpace` finds the first space rune in `r`, returning `e` if not
found. -/
def findSpace (r : List Char) (i e : Nat) : Nat × Bool :=
  findSpaceAux r e (e + 1 - i) i

/-- The loop of `findNonSpace`. -/
def findNonSpaceAux (r : List Char) (e : Nat) : Nat → Nat → Nat × Bool
  | 0, i => (i, false)
  | fuel+1, i =>
    if i < e then
      if IsSpaceOrControl (r.getD i NUL) then findNonSpaceAux r e fuel (i+1) else (i, true)
    else (i, false)

/-- `findNonSpace` finds the first non-space rune in `r`, returning `e`
if not found. -/
def findNonSpace (r : List Char) (i e : Nat) : Nat × Bool :=
  findNonSpaceAux r e (e + 1 - i) i

/-- The loop of `findRune`. -/
def findRuneAux (r : List Char) (e : Nat) (c : Char) : Nat → Nat → Nat × Bool
  | 0, i => (i, false)
  | fuel+1, i =>
    if i < e then
      if r.getD i NUL = c then (i, true) else findRuneAux r e c fuel (i+1)
    else (i, false)

/-- `findRune` finds the next rune `c` in `r`, returning `e` if not
found. -/
def findRune (r : List Char) (i e : Nat) (c : Char) : Nat × Bool :=
  findRuneAux r e c (e + 1 - i) i

/-- `isEmptyLine` returns true when `r[i:e]` is empty or whitespace. -/
def isEmptyLine (r : List Char) (i e : Nat) : Bool :=
  !(findNonSpace r i e).2

/-- A letter of a dollar tag per `identifierRE` (`(?i)^[a-z_]...`). -/
def isTagLetter (c : Char) : Bool :=
  (0x41 ≤ c.toNat && c.toNat ≤ 0x5A) || (0x61 ≤ c.toNat && c.toNat ≤ 0x7A) || c = '_'

/-- A trailing character of a dollar tag per `identifierRE`. -/
def isTagChar (c : Char) : Bool :=
  isTagLetter c || (0x30 ≤ c.toNat && c.toNat ≤ 0x39)

/-- `identifierRE.MatchString`: `(?i)^[a-z_][a-z0-9_]{0,127}$`. -/
def validIdent : List Char → Bool
  | [] => false
  | c :: cs => isTagLetter c && cs.length ≤ 127 && cs.all isTagChar

/-- The scanning loop of `readDollarAndTag`: advance from `i` until a
`$` is found, giving up after 128 characters past `start`. -/
def rdtLoopAux (r : List Char) (start e : Nat) : Nat → Nat → Nat × Bool
  | 0, i => (i, false)
  | fuel+1, i =>
    if i < e then
      if r.getD i NUL = '$' then (i, true)
      else if i - start > 128 then (i, false)
      else rdtLoopAux r start e fuel (i+1)
    else (i, false)

/-- The scan of `readDollarAndTag` from `i`, with its fuel filled in. -/
def rdtLoop (r : List Char) (start i e : Nat) : Nat × Bool :=
  rdtLoopAux r start e (e + 1 - i) i

/-- `readDollarAndTag` reads a dollar style `$tag$` in `r` starting at
`i`, returning the enclosed tag, the position of the closing `$` of the
opener, and whether the dollar-and-tag was valid (`id` of the source is
written out as `listSlice r (i+1) (rdtLoop r i (i+1) e).1`). -/
def readDollarAndTag (r : List Char) (i e : Nat) : List Char × Nat × Bool :=
  if !(rdtLoop r i (i+1) e).2 then ([], (rdtLoop r i (i+1) e).1, false)
  else if listSlice r (i+1) (rdtLoop r i (i+1) e).1 ≠ [] ∧
      ¬ validIdent (listSlice r (i+1) (rdtLoop r i (i+1) e).1) then
    ([], (rdtLoop r i (i+1) e).1, false)
  else (listSlice r (i+1) (rdtLoop r i (i+1) e).1, (rdtLoop r i (i+1) e).1, true)

/-- The loop of `readString`; `prev` is the previous rune examined
(only meaningful for single-quoted strings). -/
def readStringAux (r : List Char) (quote : Char) (tag : List Char) (e : Nat) :
    Nat → Nat → Char → Nat × Bool
  | 0, _, _ => (e, false)
  | fuel+1, i, prev =>
    if i < e then
      if quote = '\'' ∧ r.getD i NUL = '\\' then
        readStringAux r quote tag e fuel (i+2) NUL
      else if quote = '\'' ∧ r.getD i NUL = '\'' ∧ grab r (i+1) e = '\'' then
        readStringAux r quote tag e fuel (i+2) prev
      else if (quote = '\'' ∧ r.getD i NUL = '\'' ∧ prev ≠ '\'') ∨
          (quote = '"' ∧ r.getD i NUL = '"') ∨
          (quote = Char.ofNat 96 ∧ r.getD i NUL = Char.ofNat 96) then
        (i, true)
      else if quote = '$' ∧ r.getD i NUL = '$' then
        if (readDollarAndTag r i e).2.2 ∧ tag = (readDollarAndTag r i e).1 then
          ((readDollarAndTag r i e).2.1, true)
        else readStringAux r quote tag e fuel (i+1) (r.getD i NUL)
      else readStringAux r quote tag e fuel (i+1) (r.getD i NUL)
    else (e, false)

/-- `readString` seeks to the end of a string literal opened with
`quote` (with dollar tag `tag`), returning the position of the closing
delimiter and whether it was found; `e` is returned when it was not. -/
def readString (r : List Char) (i e : Nat) (quote : Char) (tag : List Char) : Nat × Bool :=
  readStringAux r quote tag e (e + 1 - i) i NUL

/-- The loop of `readMultilineComment`, looking for `*/`. -/
def rmcLoopAux (r : List Char) (e : Nat) : Nat → Nat → Nat × Bool
  | 0, _ => (e, false)
  | fuel+1, i =>
    if i < e then
      if r.getD (i-1) NUL = '*' ∧ r.getD i NUL = '/' then (i, true)
      else rmcLoopAux r e fuel (i+1)
    else (e, false)

/-- The scan of `readMultilineComment` from `i`, with its fuel filled
in. -/
def rmcLoop (r : List Char) (i e : Nat) : Nat × Bool :=
  rmcLoopAux r e (e + 1 - i) i

/-- `readMultilineComment` finds the end of a multiline comment. -/
def readMultilineComment (r : List Char) (i e : Nat) : Nat × Bool :=
  rmcLoop r (i+1) e

/-- `Var` holds information about a variable occurrence in the buffer. -/
structure Var where
  I : Nat
  End : Nat
  Quote : Char
  Name : List Char
  Len : Nat
  Defined : Bool
deriving Repr, DecidableEq

/-- The scan of `readStringVar`: look for the closing quote `q` from
position `i`; a closing quote immediately after the opener is rejected. -/
def rsvLoopAux (r : List Char) (start : Nat) (q : Char) (e : Nat) : Nat → Nat → Option Var
  | 0, _ => none
  | fuel+1, i =>
    if i < e then
      if grab r i e = q then
        if i - start < 3 then none
        else some { I := start, End := i+1, Quote := q
                  , Name := listSlice r (start+2) i, Len := 0, Defined := false }
      else rsvLoopAux r start q e fuel (i+1)
    else none

/-- The scan of `readStringVar` from `i`, with its fuel filled in. -/
def rsvLoop (r : List Char) (start : Nat) (q : Char) (i e : Nat) : Option Var :=
  rsvLoopAux r start q e (e + 1 - i) i

/-- `readStringVar` reads a string-quoted variable starting at the `:`
at position `i`. -/
def readStringVar (r : List Char) (i e : Nat) : Option Var :=
  rsvLoop r i (grab r (i+1) e) (i+2) e

/-- A rune that may continue a bare variable name. -/
def isNameChar (c : Char) : Bool := c = '_' || isLetter c || isNumber c

/-- The name scan of `readVar`: the position one past the run of name
characters starting at `i`. -/
def rvLoopAux (r : List Char) (e : Nat) : Nat → Nat → Nat
  | 0, i => i
  | fuel+1, i =>
    if i < e then
      if !isNameChar (grab r i e) then i else rvLoopAux r e fuel (i+1)
    else i

/-- The name scan from `i`, with its fuel filled in. -/
def rvLoop (r : List Char) (i e : Nat) : Nat :=
  rvLoopAux r e (e + 1 - i) i

/-- `readVar` reads a variable occurrence starting at the `:` at
position `i`, or returns `none`. -/
def readVar (r : List Char) (i e : Nat) : Option Var :=
  if grab r i e ≠ ':' ∨ grab r (i+1) e = ':' then none
  else if e - i < 2 then none
  else if grab r (i+1) e = '"' ∨ grab r (i+1) e = '\'' then readStringVar r i e
  else if rvLoop r (i+1) e - i < 2 then none
  else some { I := i, End := rvLoop r (i+1) e, Quote := NUL
            , Name := listSlice r (i+1) (rvLoop r (i+1) e), Len := 0, Defined := false }

/-- The command-token loop of `readCommand`: `.inl` is an early return
of both positions, `.inr` the position at which the parameter scan
starts. -/
def rcCmdAux (r : List Char) (e : Nat) : Nat → Nat → (Nat × Nat) ⊕ Nat
  | 0, i => .inr i
  | fuel+1, i =>
    if i < e then
      if grab r (i+1) e = NUL then .inl (e, e)
      else if grab r (i+1) e = '\\' ∨ isControl (grab r (i+1) e) then .inl (i+1, i+1)
      else if isSpace (grab r (i+1) e) then .inr (i+1)
      else rcCmdAux r e fuel (i+1)
    else .inr i

/-- The command-token scan from `i`, with its fuel filled in. -/
def rcCmdLoop (r : List Char) (i e : Nat) : (Nat × Nat) ⊕ Nat :=
  rcCmdAux r e (e + 1 - i) i

/-- The parameter loop of `readCommand`. -/
def rcParamsAux (r : List Char) (cmd : Nat) (e : Nat) : Nat → Char → Nat → Nat × Nat
  | 0, _, i => (cmd, i)
  | fuel+1, quote, i =>
    if i < e then
      if grab r (i+1) e = NUL then (cmd, e)
      else if quote = NUL ∧ (r.getD i NUL = '\'' ∨ r.getD i NUL = '"' ∨
          r.getD i NUL = Char.ofNat 96) then
        rcParamsAux r cmd e fuel (r.getD i NUL) (i+1)
      else if quote ≠ NUL ∧ r.getD i NUL = quote then rcParamsAux r cmd e fuel NUL (i+1)
      else if quote ≠ NUL ∧ r.getD i NUL = '\\' ∧
          (grab r (i+1) e = quote ∨ grab r (i+1) e = '\\') then
        rcParamsAux r cmd e fuel quote (i+2)
      else if quote = NUL ∧ (r.getD i NUL = '\\' ∨ isControl (r.getD i NUL)) then (cmd, i)
      else rcParamsAux r cmd e fuel quote (i+1)
    else (cmd, i)

/-- The parameter scan from `i`, with its fuel filled in. -/
def rcParamsLoop (r : List Char) (cmd : Nat) (quote : Char) (i e : Nat) : Nat × Nat :=
  rcParamsAux r cmd e (e + 1 - i) quote i

/-- `readCommand` reads the command and any parameters from `r`,
returning the end position of the command token and the end position of
the parameters. -/
def readCommand (r : List Char) (i e : Nat) : Nat × Nat :=
  match rcCmdLoop r i e with
  | .inl p => p
  | .inr j => rcParamsLoop r j NUL j e

/-- `appendUpperRunes` appends `r` upper-cased, then `extra`, to `s`. -/
def appendUpperRunes (s r extra : List Char) : List Char :=
  s ++ r.map toUpper ++ extra

/-- The inner scan of the block-comment arm of the prefix classifier
(Go `findPrefix`): look for `*/` from `i`; on success return the buffer
sliced past it together with its new length, otherwise `none` (the
outer loop then terminates). -/
def fpBlockAux (r : List Char) (e : Nat) : Nat → Nat → Option (List Char × Nat)
  | 0, _ => none
  | fuel+1, i =>
    if i < e then
      if grab r i e = '*' ∧ grab r (i+1) e = '/' then some (r.drop (i+2), e - (i+2))
      else fpBlockAux r e fuel (i+1)
    else none

/-- The block-comment scan from `i`, with its fuel filled in. -/
def fpBlockLoop (r : List Char) (i e : Nat) : Option (List Char × Nat) :=
  fpBlockAux r e (e + 1 - i) i

/-- The conditional word capture `s, words = appendUpperRunes(s, r[:i],
extra...), words+1` that the comment arms of the prefix classifier
perform when `i != 0` (the upper-cased prefix `r[:i]` with `extra`
appended). -/
def fpCapture (s r : List Char) (i : Nat) (extra : List Char) : List Char :=
  if i ≠ 0 then appendUpperRunes s (r.take i) extra else s

/-- The matching conditional word-counter bump. -/
def fpWords (words i : Nat) : Nat := if i ≠ 0 then words + 1 else words

/-- The conditional space insertion after a block comment: a space is
appended when runes remain, they start with space, and the captured
output is non-empty and does not already end in one. -/
def fpSpace (s r : List Char) (e : Nat) : List Char :=
  if 0 < e ∧ s ≠ [] ∧ IsSpaceOrControl (r.getD 0 NUL) ∧ !IsSpaceOrControl (s.getLastD NUL)
  then s ++ [' '] else s

/-- The main loop of the prefix classifier (Go `findPrefix`), with the
word limit `n`, the mutated slice `r` with its length `e`, the scan
position `i`, the accumulated output `s` and the word counter `words`.
The loop of the source always terminates (each iteration advances `i`
or shortens `r`); the recursion is paid for by `fuel`, and
`2*e + 1 - i` units always suffice. -/
def fpLoop (n : Nat) : Nat → List Char → Nat → Nat → List Char → Nat → List Char
  | 0, _, _, _, s, _ => s
  | fuel+1, r, e, i, s, words =>
    if i < e then
      if i ≠ (findNonSpace r i e).1 then
        fpLoop n fuel (r.drop (findNonSpace r i e).1) (e - (findNonSpace r i e).1) 0 s words
      else if grab r i e = NUL then fpLoop n fuel r e (i+1) s words
      else if grab r i e = ';' then s
      else if (grab r i e = '-' ∧ grab r (i+1) e = '-') ∨
          (grab r i e = '/' ∧ grab r (i+1) e = '/') ∨ grab r i e = '#' then
        if (findRune r i e '\n').1 ≥ e then fpCapture s r i [' ']
        else fpLoop n fuel (r.drop ((findRune r i e '\n').1 + 1))
          (e - ((findRune r i e '\n').1 + 1)) 0 (fpCapture s r i [' ']) (fpWords words i)
      else if grab r i e = '/' ∧ grab r (i+1) e = '*' then
        match fpBlockLoop r (i+2) e with
        | some re =>
          fpLoop n fuel re.1 re.2 0 (fpSpace (fpCapture s r i []) re.1 re.2) (fpWords words i)
        | none => fpSpace (fpCapture s r i []) r e
      else if words = n ∨ !isLetter (grab r i e) then s
      else if grab r (i+1) e ≠ '/' ∧ !isLetter (grab r (i+1) e) then
        if grab r (i+1) e = NUL then
          fpLoop n fuel r e (i+1) (appendUpperRunes s (r.take (i+1)) [' ']) (words+1)
        else if grab r (i+1) e = ';' then appendUpperRunes s (r.take (i+1)) [' ']
        else fpLoop n fuel (r.drop (i+2)) (e - (i+2)) 0
          (appendUpperRunes s (r.take (i+1)) [' ']) (words+1)
      else fpLoop n fuel r e (i+1) s words
    else s

/-- Fuel that always suffices for `fpLoop` started at position 0. -/
def fpFuel (r : List Char) : Nat := 2 * r.length + 1

/-- The prefix classifier `findPrefix` of the source: up to `n`
upper-cased leading words of `r`, comments elided, with the final
trailing-space trim. -/
def findPfx (r : List Char) (n : Nat) : String :=
  let s := fpLoop n (fpFuel r) r r.length 0 [] 0
  String.mk (if s ≠ [] ∧ s.getLastD NUL = ' ' then s.dropLast else s)

/-- `prefixCount`, the number of words extracted for the prefix. -/
def pfxCount : Nat := 6

/-- `substituteVar` splices `sub` over `r[v.I:v.End]`, records the
substituted length in the `Var` (the source mutates `v.Len` through the
pointer), and returns the new buffer together with the new length
`len(r) + v.Len - (v.End - v.I)`. -/
def substituteVar (r : List Char) (v : Var) (sub : List Char) : List Char × Nat × Var :=
  let v1 := { v with Len := sub.length }
  (r.take v.I ++ sub ++ r.drop v.End, r.length + sub.length - (v.End - v.I), v1)

/-- Go errors are modelled by their message; `io.EOF` is `"EOF"`. -/
abbrev GoError := String

/-- The error the exhausted rune source keeps returning. -/
def EOF : GoError := "EOF"

/-- Model of the stateful rune-source closure `f` supplied to
`NewStmt`: the list of results that successive calls will produce; once
exhausted it keeps returning EOF (the behavior of the test helper
`sp`). -/
def srcNext : List (Except GoError (List Char)) →
    Except GoError (List Char) × List (Except GoError (List Char))
  | [] => (.error EOF, [])
  | x :: xs => (x, xs)

/-- The resolver callback handed to `Next`
(Go `func(string, bool) (bool, string, error)`). -/
abbrev Unq := List Char → Bool → Bool × List Char × Option GoError

/-- The `Stmt` statement buffer.  `Buf = none` models a nil Go slice
(distinct from an initialized empty one); `Cap` carries Go's `cap(Buf)`
explicitly; `src` models the rune-source closure `f`. -/
structure Stmt where
  src : List (Except GoError (List Char))
  Buf : Option (List Char)
  Cap : Nat
  Len : Nat
  Pfx : String
  Vars : List Var
  r : List Char
  rlen : Nat
  quote : Char
  quoteDollarTag : List Char
  multilineComment : Bool
  balanceCount : Nat
  ready : Bool
deriving Repr

/-- `NewStmt` creates a new `Stmt` over the supplied rune source. -/
def NewStmt (src : List (Except GoError (List Char))) : Stmt :=
  { src := src, Buf := none, Cap := 0, Len := 0, Pfx := "", Vars := []
  , r := [], rlen := 0, quote := NUL, quoteDollarTag := []
  , multilineComment := false, balanceCount := 0, ready := false }

/-- `Stmt.Reset` resets the statement buffer, optionally reseeding the
unprocessed runes (`if r != nil` in the source). -/
def Stmt.Reset (b : Stmt) (seed : Option (List Char)) : Stmt :=
  let b1 := { b with Buf := (none : Option (List Char)), Cap := 0, Len := 0, Pfx := ""
                   , Vars := ([] : List Var), quote := NUL, quoteDollarTag := ([] : List Char)
                   , multilineComment := false, balanceCount := 0, ready := false }
  match seed with
  | some rs => { b1 with r := rs, rlen := rs.length }
  | none => b1

/-- `MinCapIncrease` is the minimum amount by which to grow a
`Stmt.Buf`. -/
def MinCapIncrease : Nat := 512

/-- `Stmt.Append` appends `r` to the buffer separated by `sep` when the
buffer is already initialized (non-nil).  The capacity of the initial
rune-slice conversion is runtime-defined in Go (at least the length);
it is modelled as the exact length.  The reslice-within-capacity path
exposes memory beyond the old length; those runes are modelled as 0
(they are only reachable from states violating `Len = length Buf`). -/
def Stmt.Append (b : Stmt) (r sep : List Char) : Stmt :=
  let rlen := r.length
  match b.Buf with
  | none => { b with Buf := some r, Cap := rlen, Len := rlen }
  | some buf =>
    let blen := b.Len
    let seplen := sep.length
    let tlen := blen + rlen + seplen
    let cap1 := if b.Cap < tlen then
        let n := tlen + 2 * rlen
        n + (MinCapIncrease - n % MinCapIncrease)
      else b.Cap
    let content := (buf.take blen ++ List.replicate (blen - buf.length) NUL) ++ sep ++ r
    { b with Buf := some content, Cap := cap1, Len := tlen }

/-- `Stmt.State` returns the single-character parse-state summary. -/
def Stmt.State (b : Stmt) : String :=
  if b.quote ≠ NUL then String.mk [b.quote]
  else if b.multilineComment then "*"
  else if b.balanceCount ≠ 0 then "("
  else if b.Len ≠ 0 then "-"
  else "="

/-- The contents of the statement buffer (`Stmt.String` in the source). -/
def Stmt.contents (b : Stmt) : List Char := b.Buf.getD []

/-- The `q + v.Name + q` argument handed to the resolver. -/
def unquoteArg (v : Var) : List Char :=
  (if v.Quote ≠ NUL then [v.Quote] else []) ++ v.Name ++ (if v.Quote ≠ NUL then [v.Quote] else [])

/-- The adjustment `v.I += b.Len + 1` applied when the statement buffer
already holds text (accounting for the later `\n` separator). -/
def varAdjust (len : Nat) (v : Var) : Var :=
  if len ≠ 0 then { v with I := v.I + len + 1 } else v

/-- The state change shared by an accepted variable and a
backslash-escape: record the (adjusted, length-updated) `Var` and
splice the replacement into the unprocessed runes. -/
def applyVarSub (b : Stmt) (v : Var) (z : List Char) : Stmt :=
  { b with Vars := b.Vars ++ [varAdjust b.Len (substituteVar b.r v z).2.2]
         , r := (substituteVar b.r v z).1, rlen := (substituteVar b.r v z).2.1 }

/-- The command branch of the parse loop: capture `cmd` and `params`
from `readCommand` and splice them out of the unprocessed runes. -/
def cmdStep (b : Stmt) (i : Nat) : List Char × List Char × Stmt × Nat :=
  (listSlice b.r i (readCommand b.r i b.rlen).1,
   listSlice b.r (readCommand b.r i b.rlen).1 (readCommand b.r i b.rlen).2,
   { b with r := b.r.take i ++ b.r.drop (readCommand b.r i b.rlen).2
          , rlen := (b.r.take i ++ b.r.drop (readCommand b.r i b.rlen).2).length }, i)

/-- The `parse:` loop of `Stmt.Next`, dispatching one rune (or one
sub-scanner run) per iteration.  Returns the command, its parameters,
the updated state and the final loop position; `none` when `fuel` runs
out (the Go loop can genuinely diverge when the resolver keeps handing
back replacements that again parse as variables, so the recursion is
fuel-based). -/
def parseLoop (u : Unq) : Nat → Stmt → Nat → Option (List Char × List Char × Stmt × Nat)
  | 0, _, _ => none
  | fuel+1, b, i =>
    if i < b.rlen then
      if b.quote ≠ NUL then
        parseLoop u fuel
          (if (readString b.r i b.rlen b.quote b.quoteDollarTag).2 then
            { b with quote := NUL, quoteDollarTag := ([] : List Char) } else b)
          ((readString b.r i b.rlen b.quote b.quoteDollarTag).1 + 1)
      else if b.multilineComment then
        parseLoop u fuel { b with multilineComment := !(readMultilineComment b.r i b.rlen).2 }
          ((readMultilineComment b.r i b.rlen).1 + 1)
      else if b.r.getD i NUL = '\'' ∨ b.r.getD i NUL = '"' then
        parseLoop u fuel { b with quote := b.r.getD i NUL } (i+1)
      else if b.r.getD i NUL = '$' ∧ (grab b.r (i+1) b.rlen = '$' ∨
          grab b.r (i+1) b.rlen = '_' ∨ isLetter (grab b.r (i+1) b.rlen)) then
        parseLoop u fuel
          (if (readDollarAndTag b.r i b.rlen).2.2 then
            { b with quote := '$', quoteDollarTag := (readDollarAndTag b.r i b.rlen).1 } else b)
          ((readDollarAndTag b.r i b.rlen).2.1 + 1)
      else if b.r.getD i NUL = '-' ∧ grab b.r (i+1) b.rlen = '-' then
        parseLoop u fuel b (b.rlen+1)
      else if b.r.getD i NUL = '/' ∧ grab b.r (i+1) b.rlen = '/' then
        parseLoop u fuel b (b.rlen+1)
      else if b.r.getD i NUL = '#' then parseLoop u fuel b (b.rlen+1)
      else if b.r.getD i NUL = '/' ∧ grab b.r (i+1) b.rlen = '*' then
        parseLoop u fuel { b with multilineComment := true } (i+2)
      else if b.r.getD i NUL = ':' ∧ grab b.r (i+1) b.rlen ≠ ':' then
        match readVar b.r i b.rlen with
        | none => parseLoop u fuel b (i+1)
        | some v =>
          if (u (unquoteArg v) true).1 then
            parseLoop u fuel
              (applyVarSub b { v with Defined := true } (u (unquoteArg v) true).2.1) i
          else
            parseLoop u fuel { b with Vars := b.Vars ++ [varAdjust b.Len v] } (i+1)
      else if b.r.getD i NUL = '(' then
        parseLoop u fuel { b with balanceCount := b.balanceCount + 1 } (i+1)
      else if b.r.getD i NUL = ')' then
        parseLoop u fuel { b with balanceCount := b.balanceCount - 1 } (i+1)
      else if b.quote ≠ NUL ∨ b.multilineComment ∨ b.balanceCount ≠ 0 then
        parseLoop u fuel b (i+1)
      else if b.r.getD i NUL = '\\' ∧ (grab b.r (i+1) b.rlen = '\\' ∨
          grab b.r (i+1) b.rlen = ';' ∨ grab b.r (i+1) b.rlen = ':') then
        parseLoop u fuel
          (applyVarSub b { I := i, End := i+2, Quote := '\\'
                         , Name := [grab b.r (i+1) b.rlen], Len := 0, Defined := false }
            [grab b.r (i+1) b.rlen]) (i+1)
      else if b.r.getD i NUL = '\\' then
        some (cmdStep b i)
      else if b.r.getD i NUL = ';' then
        some ([], [], { b with ready := true }, i+1)
      else parseLoop u fuel b (i+1)
    else some ([], [], b, i)

/-- The tail of `Stmt.Next` after the source fetch: the parse loop,
the append decision, the prefix recomputation, and the handing back of
the unprocessed tail. -/
def Stmt.nextBody (fuel : Nat) (b : Stmt) (u : Unq) :
    Option ((String × String × Option GoError) × Stmt) :=
  match parseLoop u fuel b 0 with
  | none => none
  | some (cmd, params, b2, i0) =>
    let i := min i0 b2.rlen
    let empty := isEmptyLine b2.r 0 i
    let appendLine := (b2.quote != NUL || b2.multilineComment || !empty) &&
                      !(!b2.multilineComment && cmd != ([] : List Char) && empty)
    let b3 := if appendLine then
        let st := if b2.Len = 0 then (findNonSpace b2.r 0 i).1 else 0
        b2.Append (listSlice b2.r st i) ['\n']
      else b2
    let b4 := { b3 with Pfx := findPfx b3.contents pfxCount }
    let r1 := b4.r.drop i
    some ((String.mk cmd, String.mk params, none), { b4 with r := r1, rlen := r1.length })

/-- `Stmt.Next` (fuel-explicit): fetch a line from the source when no
runes are pending (propagating its error verbatim, with the fetched
rune slice assigned even then, as in the source), then run the parse
loop and the post-processing. -/
def Stmt.NextF (fuel : Nat) (b : Stmt) (u : Unq) :
    Option ((String × String × Option GoError) × Stmt) :=
  if b.rlen = 0 then
    match srcNext b.src with
    | (.error err, src1) => some (("", "", some err), { b with src := src1, r := ([] : List Char) })
    | (.ok rs, src1) =>
      Stmt.nextBody fuel { b with src := src1, r := rs, rlen := rs.length } u
  else Stmt.nextBody fuel b u

/-- A resolver that declines every variable (no substitutions). -/
def declineU : Unq := fun s _ => (false, s, none)

/-- The driver loop of the test harness `TestNextResetState`: call
`Next` until the source errors out, collecting completed statements
(resetting after each) and the `cmd|params` records. -/
def runNext : Nat → Stmt → Unq → List String × List String
  | 0, _, _ => ([], [])
  | fuel+1, b, u =>
    match Stmt.NextF 1000 b u with
    | none => ([], [])
    | some ((_, _, some _), _) => ([], [])
    | some ((cmd, params, none), b1) =>
      let execute := b1.ready || cmd = "\\g"
      let stmt? := if execute then [String.mk b1.contents] else []
      let b2 := if execute then b1.Reset none else b1
      let rest := runNext fuel b2 u
      (stmt? ++ rest.1, (cmd ++ "|" ++ params) :: rest.2)

/-- Convenience: a rune source built from whole lines. -/
def linesSrc (lines : List String) : List (Except GoError (List Char)) :=
  lines.map (fun s => .ok s.data)

/-- A character the prefix classifier can emit inside a word: a letter
fixed by `toUpper`. -/
def goodChar (c : Char) : Bool := isLetter c && (toUpper c == c)

/-- A word the prefix classifier can emit: non-empty, all `goodChar`. -/
def goodWord (w : List Char) : Prop := w ≠ [] ∧ ∀ c ∈ w, goodChar c = true

/-- The captured words each followed by one space. -/
def wordsJoinA (ws : List (List Char)) : List Char := (ws.map (fun w => w ++ [' '])).join

/-- The captured words separated by single spaces (no trailing one). -/
def wordsFlat : List (List Char) → List Char
  | [] => []
  | [w] => w
  | w :: ws => w ++ ' ' :: wordsFlat ws

/-- The shape of the classifier accumulator: space-terminated good
words, possibly followed by one unterminated good word, at most `k` of
them in total. -/
def Shape (s : List Char) (k : Nat) : Prop :=
  (∃ ws, (∀ w ∈ ws, goodWord w) ∧ ws.length ≤ k ∧ s = wordsJoinA ws) ∨
  (∃ ws w, (∀ x ∈ ws, goodWord x) ∧ goodWord w ∧ ws.length + 1 ≤ k ∧ s = wordsJoinA ws ++ w)

/-! ## Theorems -/

/-- C3 (counterexample): the claim says a `Reset` with no seed leaves no
pending runes behind; in the code `Reset(nil)` does not touch the
pending runes at all, so a state with a pending rune keeps it. -/
theorem C3_counterexample :
    (Stmt.Reset { NewStmt [] with r := ['x'], rlen := 1 } none).r = ['x'] ∧
    (Stmt.Reset { NewStmt [] with r := ['x'], rlen := 1 } none).r ≠ [] := by
  constructor
  · rfl
  · decide

/-- C3 (amended): after `Reset` the buffer is nil, the logical length 0,
the variable list and cached prefix empty, `State()` is `"="` and
`ready` is false; the pending runes are left untouched by a `Reset`
with no seed and are replaced by the seed (its length included) when
one is passed. -/
theorem C3_reset (b : Stmt) (seed : Option (List Char)) :
    (b.Reset seed).Buf = none ∧ (b.Reset seed).Len = 0 ∧
    (b.Reset seed).Vars = [] ∧ (b.Reset seed).Pfx = "" ∧
    (b.Reset seed).State = "=" ∧ (b.Reset seed).ready = false ∧
    (b.Reset seed).quote = NUL ∧ (b.Reset seed).multilineComment = false ∧
    (b.Reset seed).balanceCount = 0 ∧
    (b.Reset seed).r = seed.getD b.r ∧
    (b.Reset seed).rlen = (seed.map List.length).getD b.rlen := by
  cases seed <;>
    simp [Stmt.Reset, Stmt.State]

/-- C5 (counterexample): the claim says `append` adds the chunk alone
when the buffer is empty; the code tests for a nil buffer instead, so
appending to an initialized-but-empty buffer (reachable by first
appending an empty chunk, a case the repository's own `TestAppend`
pins down as producing `"\n"`) still inserts the separator. -/
theorem C5_counterexample :
    ((NewStmt []).Append [] ['\n']).contents = [] ∧
    (((NewStmt []).Append [] ['\n']).Append ['a'] ['\n']).contents = ['\n', 'a'] ∧
    (((NewStmt []).Append [] ['\n']).Append ['a'] ['\n']).contents ≠ ['a'] := by
  refine ⟨rfl, rfl, ?_⟩
  decide

/-- C5 (amended): `Append` extends the buffer contents by separator
followed by chunk whenever the buffer is initialized (non-nil) — even
when its contents are empty — and by the chunk alone when the buffer is
nil; afterwards the logical length equals the length of the resulting
contents. -/
theorem C5_append (b : Stmt) (r sep : List Char) :
    (b.Buf = none →
      (b.Append r sep).contents = r ∧ (b.Append r sep).Len = (b.Append r sep).contents.length) ∧
    (∀ buf, b.Buf = some buf → b.Len = buf.length →
      (b.Append r sep).contents = buf ++ sep ++ r ∧
      (b.Append r sep).Len = (b.Append r sep).contents.length) := by
  constructor
  · intro h
    simp [Stmt.Append, h, Stmt.contents]
  · intro buf h hl
    simp [Stmt.Append, h, Stmt.contents, hl]
    omega

/-- C5 (witness). -/
theorem C5_append_witness :
    ((NewStmt []).Append ['a'] ['\n']).contents = ['a'] ∧
    ((NewStmt []).Append ['a'] ['\n']).Len = ((NewStmt []).Append ['a'] ['\n']).contents.length := by
  exact (C5_append (NewStmt []) ['a'] ['\n']).1 rfl

set_option maxRecDepth 8192 in
/-- C6 (counterexample): when the required length plus twice the chunk
length is already an exact multiple of 512, the code still adds a full
extra 512 (its rounding is to the *strictly* next multiple), and the
capacity increase from a capacity that is not itself a multiple of 512
is not a multiple of 512 — both against the claim's reading. -/
theorem C6_counterexample :
    (1 + 341 + 0) + 2 * 341 = 1024 ∧ (1024 : Nat) % 512 = 0 ∧
    ({ NewStmt [] with Buf := some ['a'], Cap := 1, Len := 1 }.Append
      (List.replicate 341 'b') []).Cap = 1536 ∧
    (({ NewStmt [] with Buf := some ['a'], Cap := 1, Len := 1 }.Append
      (List.replicate 341 'b') []).Cap - 1) % 512 ≠ 0 := by
  refine ⟨rfl, rfl, ?_, ?_⟩
  · simp [Stmt.Append, MinCapIncrease]
  · simp [Stmt.Append, MinCapIncrease]

/-- C6 (amended): on every growing `Append` call (required total length
exceeding the capacity), the new capacity is the smallest multiple of
`MinCapIncrease = 512` *strictly greater* than required + 2·|chunk|; in
particular the new capacity is always a multiple of 512, and the
capacity increase is a multiple of 512 whenever the previous capacity
was itself one (as after any previous growth). -/
theorem C6_grow (b : Stmt) (r sep buf : List Char) (hb : b.Buf = some buf)
    (hgrow : b.Cap < b.Len + r.length + sep.length) :
    (b.Append r sep).Cap =
      MinCapIncrease * ((b.Len + r.length + sep.length + 2 * r.length) / MinCapIncrease + 1) ∧
    (b.Append r sep).Cap % MinCapIncrease = 0 ∧
    b.Len + r.length + sep.length + 2 * r.length < (b.Append r sep).Cap ∧
    (b.Append r sep).Cap ≤ b.Len + r.length + sep.length + 2 * r.length + MinCapIncrease ∧
    (b.Cap % MinCapIncrease = 0 → ((b.Append r sep).Cap - b.Cap) % MinCapIncrease = 0) := by
  have hcap : (b.Append r sep).Cap =
      (b.Len + r.length + sep.length + 2 * r.length) +
      (MinCapIncrease - (b.Len + r.length + sep.length + 2 * r.length) % MinCapIncrease) := by
    simp [Stmt.Append, hb, MinCapIncrease]
    omega
  rw [hcap]
  simp [MinCapIncrease]
  omega

/-- C6 (witness). -/
theorem C6_grow_witness :
    ({ NewStmt [] with Buf := some ['a'], Cap := 1, Len := 1 }.Append ['b'] ['\n']).Cap =
      512 * ((1 + 1 + 1 + 2 * 1) / 512 + 1) ∧
    ({ NewStmt [] with Buf := some ['a'], Cap := 1, Len := 1 }.Append ['b'] ['\n']).Cap % 512 = 0 := by
  have h := C6_grow { NewStmt [] with Buf := some ['a'], Cap := 1, Len := 1 }
    ['b'] ['\n'] ['a'] rfl (by decide)
  exact ⟨h.1, h.2.1⟩

/-- C8 (confirmed): with no pending runes, a source error (EOF or any
other) is propagated verbatim with empty `cmd` and `params`, and the
statement buffer, length, prefix, variables, quote state, comment flag,
paren depth and ready flag are all left exactly as they were. -/
theorem C8_error_propagation (b : Stmt) (u : Unq) (fuel : Nat) (err : GoError)
    (rest : List (Except GoError (List Char)))
    (h0 : b.rlen = 0) (hsrc : srcNext b.src = (.error err, rest)) :
    ∃ b', Stmt.NextF fuel b u = some (("", "", some err), b') ∧
      b'.Buf = b.Buf ∧ b'.Len = b.Len ∧ b'.Pfx = b.Pfx ∧ b'.Vars = b.Vars ∧
      b'.quote = b.quote ∧ b'.quoteDollarTag = b.quoteDollarTag ∧
      b'.multilineComment = b.multilineComment ∧ b'.balanceCount = b.balanceCount ∧
      b'.ready = b.ready ∧ b'.rlen = b.rlen := by
  refine ⟨{ b with src := rest, r := ([] : List Char) }, ?_,
    rfl, rfl, rfl, rfl, rfl, rfl, rfl, rfl, rfl, rfl⟩
  simp [Stmt.NextF, h0, hsrc]

/-- C8 (witness): the exhausted source returns EOF and the state is
untouched. -/
theorem C8_error_propagation_witness :
    ∃ b', Stmt.NextF 5 (NewStmt []) declineU = some (("", "", some EOF), b') ∧
      b'.Buf = (NewStmt []).Buf ∧ b'.Len = (NewStmt []).Len ∧ b'.Pfx = (NewStmt []).Pfx ∧
      b'.Vars = (NewStmt []).Vars ∧ b'.quote = (NewStmt []).quote ∧
      b'.quoteDollarTag = (NewStmt []).quoteDollarTag ∧
      b'.multilineComment = (NewStmt []).multilineComment ∧
      b'.balanceCount = (NewStmt []).balanceCount ∧
      b'.ready = (NewStmt []).ready ∧ b'.rlen = (NewStmt []).rlen := by
  have h := C8_error_propagation (NewStmt []) declineU 5 EOF [] rfl rfl
  obtain ⟨b', h1, h2⟩ := h
  exact ⟨b', h1, h2⟩

/-! ### Range bounds of the sub-scanners -/

/-- A non-zero `grab` means the index was in range. -/
theorem grab_ne_nul {r : List Char} {i e : Nat} (h : grab r i e ≠ NUL) : i < e := by
  by_contra hge
  rw [grab, if_neg hge] at h
  exact h rfl

/-- `rdtLoop` stays within `[j, e]` when entered at `j ≤ e`. -/
theorem rdtLoopAux_bounds (r : List Char) (s e : Nat) :
    ∀ fuel j, j ≤ e → j ≤ (rdtLoopAux r s e fuel j).1 ∧ (rdtLoopAux r s e fuel j).1 ≤ e := by
  intro fuel
  induction fuel with
  | zero =>
    intro j h
    rw [rdtLoopAux]
    omega
  | succ n ih =>
    intro j h
    rw [rdtLoopAux]
    by_cases hlt : j < e
    · rw [if_pos hlt]
      by_cases hd : r.getD j NUL = '$'
      · rw [if_pos hd]
        omega
      · rw [if_neg hd]
        by_cases hbig : j - s > 128
        · rw [if_pos hbig]
          omega
        · rw [if_neg hbig]
          have := ih (j+1) (by omega)
          omega
    · rw [if_neg hlt]
      omega

/-- `rdtLoop` stays within `[j, e]` when entered at `j ≤ e`. -/
theorem rdtLoop_bounds (r : List Char) (s : Nat) (j e : Nat) :
    j ≤ e → j ≤ (rdtLoop r s j e).1 ∧ (rdtLoop r s j e).1 ≤ e := by
  intro h
  exact rdtLoopAux_bounds r s e (e + 1 - j) j h

/-- `rdtLoop` out of range returns its entry position. -/
theorem rdtLoop_base (r : List Char) (s : Nat) {j e : Nat} (h : ¬ j < e) :
    rdtLoop r s j e = (j, false) := by
  unfold rdtLoop
  rcases hf : e + 1 - j with _ | n
  · rw [rdtLoopAux]
  · rw [rdtLoopAux, if_neg h]

/-- The position returned by `readDollarAndTag` is the scan position in
every branch. -/
theorem readDollarAndTag_pos (r : List Char) (i e : Nat) :
    (readDollarAndTag r i e).2.1 = (rdtLoop r i (i+1) e).1 := by
  unfold readDollarAndTag
  split
  · rfl
  · split
    · rfl
    · rfl

/-- `readDollarAndTag` stays within `[i, e]` when `i < e`. -/
theorem readDollarAndTag_bounds (r : List Char) (i e : Nat) (h : i < e) :
    i ≤ (readDollarAndTag r i e).2.1 ∧ (readDollarAndTag r i e).2.1 ≤ e := by
  have hb := rdtLoop_bounds r i (i+1) e (by omega)
  rw [readDollarAndTag_pos]
  omega

/-- `readDollarAndTag` called at the very end of the range overshoots:
it returns position `e + 1`. -/
theorem readDollarAndTag_at_end (r : List Char) (e : Nat) :
    (readDollarAndTag r e e).2.1 = e + 1 := by
  rw [readDollarAndTag_pos, rdtLoop_base r e (by omega)]

/-- The `readString` loop stays within `[min i e, e]`. -/
theorem readStringAux_bounds (r : List Char) (q : Char) (tag : List Char) (e : Nat) :
    ∀ fuel i prev, min i e ≤ (readStringAux r q tag e fuel i prev).1 ∧
      (readStringAux r q tag e fuel i prev).1 ≤ e := by
  intro fuel
  induction fuel with
  | zero =>
    intro i prev
    rw [readStringAux]
    omega
  | succ n ih =>
    intro i prev
    rw [readStringAux]
    by_cases hlt : i < e
    · rw [if_pos hlt]
      by_cases h1 : q = '\'' ∧ r.getD i NUL = '\\'
      · rw [if_pos h1]
        have := ih (i+2) NUL
        omega
      · rw [if_neg h1]
        by_cases h2 : q = '\'' ∧ r.getD i NUL = '\'' ∧ grab r (i+1) e = '\''
        · rw [if_pos h2]
          have := ih (i+2) prev
          omega
        · rw [if_neg h2]
          by_cases h3 : (q = '\'' ∧ r.getD i NUL = '\'' ∧ prev ≠ '\'') ∨
              (q = '"' ∧ r.getD i NUL = '"') ∨
              (q = Char.ofNat 96 ∧ r.getD i NUL = Char.ofNat 96)
          · rw [if_pos h3]
            omega
          · rw [if_neg h3]
            by_cases h4 : q = '$' ∧ r.getD i NUL = '$'
            · rw [if_pos h4]
              by_cases h5 : (readDollarAndTag r i e).2.2 = true ∧
                  tag = (readDollarAndTag r i e).1
              · rw [if_pos h5]
                have := readDollarAndTag_bounds r i e hlt
                omega
              · rw [if_neg h5]
                have := ih (i+1) (r.getD i NUL)
                omega
            · rw [if_neg h4]
              have := ih (i+1) (r.getD i NUL)
              omega
    · rw [if_neg hlt]
      omega

/-- `readString` stays within `[i, e]` when `i ≤ e`. -/
theorem readString_bounds (r : List Char) (i e : Nat) (q : Char) (tag : List Char) (h : i ≤ e) :
    i ≤ (readString r i e q tag).1 ∧ (readString r i e q tag).1 ≤ e := by
  have := readStringAux_bounds r q tag e (e + 1 - i) i NUL
  rw [readString]
  omega

/-- The `readMultilineComment` loop stays within `[min i e, e]`. -/
theorem rmcLoopAux_bounds (r : List Char) (e : Nat) :
    ∀ fuel i, min i e ≤ (rmcLoopAux r e fuel i).1 ∧ (rmcLoopAux r e fuel i).1 ≤ e := by
  intro fuel
  induction fuel with
  | zero =>
    intro i
    rw [rmcLoopAux]
    omega
  | succ n ih =>
    intro i
    rw [rmcLoopAux]
    by_cases hlt : i < e
    · rw [if_pos hlt]
      by_cases hf : r.getD (i-1) NUL = '*' ∧ r.getD i NUL = '/'
      · rw [if_pos hf]
        omega
      · rw [if_neg hf]
        have := ih (i+1)
        omega
    · rw [if_neg hlt]
      omega

/-- `readMultilineComment` stays within `[i, e]` when `i ≤ e`. -/
theorem readMultilineComment_bounds (r : List Char) (i e : Nat) (h : i ≤ e) :
    i ≤ (readMultilineComment r i e).1 ∧ (readMultilineComment r i e).1 ≤ e := by
  have := rmcLoopAux_bounds r e (e + 1 - (i+1)) (i+1)
  rw [readMultilineComment, rmcLoop]
  omega

/-- The bare-name scan stays within `[j, e]` when entered at `j ≤ e`. -/
theorem rvLoopAux_bounds (r : List Char) (e : Nat) :
    ∀ fuel j, j ≤ e → j ≤ rvLoopAux r e fuel j ∧ rvLoopAux r e fuel j ≤ e := by
  intro fuel
  induction fuel with
  | zero =>
    intro j h
    rw [rvLoopAux]
    omega
  | succ n ih =>
    intro j h
    rw [rvLoopAux]
    by_cases hlt : j < e
    · rw [if_pos hlt]
      by_cases hnc : !isNameChar (grab r j e)
      · rw [if_pos hnc]
        omega
      · rw [if_neg hnc]
        have := ih (j+1) (by omega)
        omega
    · rw [if_neg hlt]
      omega

/-- The bare-name scan stays within `[j, e]` when entered at `j ≤ e`. -/
theorem rvLoop_bounds (r : List Char) (j e : Nat) :
    j ≤ e → j ≤ rvLoop r j e ∧ rvLoop r j e ≤ e := by
  intro h
  exact rvLoopAux_bounds r e (e + 1 - j) j h

/-- Any `Var` produced by the quoted-variable scan starts at the
opening colon, ends past the closing quote but within the range, and
carries the opening quote. -/
theorem rsvLoopAux_bounds (r : List Char) (s : Nat) (q : Char) (e : Nat) :
    ∀ fuel j v, rsvLoopAux r s q e fuel j = some v →
      v.I = s ∧ s + 4 ≤ v.End ∧ v.End ≤ e ∧ v.Quote = q := by
  intro fuel
  induction fuel with
  | zero =>
    intro j v hv
    rw [rsvLoopAux] at hv
    exact absurd hv (by simp)
  | succ n ih =>
    intro j v hv
    rw [rsvLoopAux] at hv
    by_cases hlt : j < e
    · rw [if_pos hlt] at hv
      by_cases hq : grab r j e = q
      · rw [if_pos hq] at hv
        by_cases hsmall : j - s < 3
        · rw [if_pos hsmall] at hv
          exact absurd hv (by simp)
        · rw [if_neg hsmall] at hv
          simp only [Option.some.injEq] at hv
          subst hv
          refine ⟨rfl, ?_, ?_, rfl⟩ <;> simp <;> omega
      · rw [if_neg hq] at hv
        exact ih (j+1) v hv
    · rw [if_neg hlt] at hv
      exact absurd hv (by simp)

/-- Any `Var` produced by `readVar` starts at `i`, ends within
`(i, e]`, and is unquoted or quoted by `'` or `"`. -/
theorem readVar_bounds (r : List Char) (i e : Nat) :
    ∀ v, readVar r i e = some v →
      v.I = i ∧ i + 2 ≤ v.End ∧ v.End ≤ e ∧
      (v.Quote = NUL ∨ v.Quote = '\'' ∨ v.Quote = '"') := by
  intro v hv
  unfold readVar at hv
  split at hv
  · exact absurd hv (by simp)
  · split at hv
    · exact absurd hv (by simp)
    · rename_i hcol hlen
      split at hv
      · rename_i hq
        rw [readStringVar, rsvLoop] at hv
        have hb := rsvLoopAux_bounds r i (grab r (i+1) e) e (e + 1 - (i+2)) (i+2) v hv
        rcases hq with hq | hq
        · exact ⟨hb.1, by omega, by omega, Or.inr (Or.inr (by rw [hb.2.2.2, hq]))⟩
        · exact ⟨hb.1, by omega, by omega, Or.inr (Or.inl (by rw [hb.2.2.2, hq]))⟩
      · split at hv
        · exact absurd hv (by simp)
        · rename_i hj
          simp only [Option.some.injEq] at hv
          subst hv
          have hb := rvLoop_bounds r (i+1) e (by omega)
          refine ⟨rfl, ?_, ?_, Or.inl rfl⟩ <;> simp <;> omega

/-- The command-token loop stays within `[i, e]`, and both positions of
an early return agree. -/
theorem rcCmdAux_bounds (r : List Char) (e : Nat) :
    ∀ fuel i, i ≤ e →
      (∀ p, rcCmdAux r e fuel i = .inl p → i ≤ p.1 ∧ p.1 = p.2 ∧ p.2 ≤ e) ∧
      (∀ j, rcCmdAux r e fuel i = .inr j → i ≤ j ∧ j ≤ e) := by
  intro fuel
  induction fuel with
  | zero =>
    intro i h
    rw [rcCmdAux]
    exact ⟨fun p hp => by simp at hp, fun j hj => by simp at hj; omega⟩
  | succ n ih =>
    intro i h
    rw [rcCmdAux]
    by_cases hlt : i < e
    · rw [if_pos hlt]
      by_cases hn : grab r (i+1) e = NUL
      · rw [if_pos hn]
        refine ⟨fun p hp => ?_, fun j hj => by simp at hj⟩
        simp only [Sum.inl.injEq] at hp
        subst hp
        omega
      · rw [if_neg hn]
        by_cases hbs : grab r (i+1) e = '\\' ∨ isControl (grab r (i+1) e)
        · rw [if_pos hbs]
          refine ⟨fun p hp => ?_, fun j hj => by simp at hj⟩
          simp only [Sum.inl.injEq] at hp
          subst hp
          omega
        · rw [if_neg hbs]
          by_cases hsp : isSpace (grab r (i+1) e) = true
          · rw [if_pos hsp]
            refine ⟨fun p hp => by simp at hp, fun j hj => ?_⟩
            simp only [Sum.inr.injEq] at hj
            omega
          · rw [if_neg hsp]
            have hih := ih (i+1) (by omega)
            refine ⟨fun p hp => ?_, fun j hj => ?_⟩
            · have := hih.1 p hp
              omega
            · have := hih.2 j hj
              omega
    · rw [if_neg hlt]
      refine ⟨fun p hp => by simp at hp, fun j hj => ?_⟩
      simp only [Sum.inr.injEq] at hj
      omega

/-- The parameter loop keeps the command end, only advances, and stays
within the range. -/
theorem rcParamsAux_bounds (r : List Char) (cmd : Nat) (e : Nat) :
    ∀ fuel q i, i ≤ e →
      (rcParamsAux r cmd e fuel q i).1 = cmd ∧ i ≤ (rcParamsAux r cmd e fuel q i).2 ∧
      (rcParamsAux r cmd e fuel q i).2 ≤ e := by
  intro fuel
  induction fuel with
  | zero =>
    intro q i h
    rw [rcParamsAux]
    omega
  | succ n ih =>
    intro q i h
    rw [rcParamsAux]
    by_cases hlt : i < e
    · rw [if_pos hlt]
      by_cases hn : grab r (i+1) e = NUL
      · rw [if_pos hn]
        omega
      · rw [if_neg hn]
        by_cases hq : q = NUL ∧ (r.getD i NUL = '\'' ∨ r.getD i NUL = '"' ∨
            r.getD i NUL = Char.ofNat 96)
        · rw [if_pos hq]
          have := ih (r.getD i NUL) (i+1) (by omega)
          omega
        · rw [if_neg hq]
          by_cases hcq : q ≠ NUL ∧ r.getD i NUL = q
          · rw [if_pos hcq]
            have := ih NUL (i+1) (by omega)
            omega
          · rw [if_neg hcq]
            by_cases hesc : q ≠ NUL ∧ r.getD i NUL = '\\' ∧
                (grab r (i+1) e = q ∨ grab r (i+1) e = '\\')
            · rw [if_pos hesc]
              have hlt2 : i + 1 < e := grab_ne_nul hn
              have := ih q (i+2) (by omega)
              omega
            · rw [if_neg hesc]
              by_cases hbr : q = NUL ∧ (r.getD i NUL = '\\' ∨ isControl (r.getD i NUL))
              · rw [if_pos hbr]
                omega
              · rw [if_neg hbr]
                have := ih q (i+1) (by omega)
                omega
    · rw [if_neg hlt]
      omega

/-- `readCommand` returns `i ≤ cmd-end ≤ params-end ≤ e` when `i ≤ e`. -/
theorem readCommand_bounds (r : List Char) (i e : Nat) (h : i ≤ e) :
    i ≤ (readCommand r i e).1 ∧ (readCommand r i e).1 ≤ (readCommand r i e).2 ∧
      (readCommand r i e).2 ≤ e := by
  have hc := rcCmdAux_bounds r e (e + 1 - i) i h
  unfold readCommand rcCmdLoop
  cases hcc : rcCmdAux r e (e + 1 - i) i with
  | inl p =>
    have := hc.1 p hcc
    dsimp only
    omega
  | inr j =>
    have hj := hc.2 j hcc
    have := rcParamsAux_bounds r j e (e + 1 - j) NUL j (by omega)
    dsimp only
    unfold rcParamsLoop
    omega

/-- C10 (counterexample): the claim allows `i = end`, but
`readDollarAndTag` called with `i = end` (here the empty buffer with
`i = end = 0`) returns position `end + 1`, outside `[i, end]`. -/
theorem C10_counterexample :
    readDollarAndTag ([] : List Char) 0 0 = ([], 1, false) ∧
    ¬ ((readDollarAndTag ([] : List Char) 0 0).2.1 ≤ 0) := by
  constructor
  · rfl
  · decide

/-- C10 (amended): for `0 ≤ i ≤ end ≤ len r`, every sub-scanner is
total and returns positions in `[i, end]` (with
`cmd-end ≤ params-end ≤ end` for `readCommand`) — except that
`readDollarAndTag` requires `i < end`: called exactly at `end` it
returns `end + 1`. -/
theorem C10_scanner_bounds (r : List Char) (i e : Nat) (q : Char) (tag : List Char)
    (h : i ≤ e) (_hlen : e ≤ r.length) :
    (i ≤ (readString r i e q tag).1 ∧ (readString r i e q tag).1 ≤ e) ∧
    (i < e → i ≤ (readDollarAndTag r i e).2.1 ∧ (readDollarAndTag r i e).2.1 ≤ e) ∧
    ((readDollarAndTag r e e).2.1 = e + 1) ∧
    (i ≤ (readMultilineComment r i e).1 ∧ (readMultilineComment r i e).1 ≤ e) ∧
    (∀ v, readVar r i e = some v → v.I = i ∧ i ≤ v.End ∧ v.End ≤ e) ∧
    (i ≤ (readCommand r i e).1 ∧ (readCommand r i e).1 ≤ (readCommand r i e).2 ∧
      (readCommand r i e).2 ≤ e) := by
  refine ⟨readString_bounds r i e q tag h, fun hlt => readDollarAndTag_bounds r i e hlt,
    readDollarAndTag_at_end r e, readMultilineComment_bounds r i e h, fun v hv => ?_,
    readCommand_bounds r i e h⟩
  have := readVar_bounds r i e v hv
  exact ⟨this.1, by omega, this.2.2.1⟩

/-- C10 (witness). -/
theorem C10_scanner_bounds_witness :
    ((0 ≤ (readString "ab".data 0 2 '\'' []).1 ∧ (readString "ab".data 0 2 '\'' []).1 ≤ 2) ∧
    (0 < 2 → 0 ≤ (readDollarAndTag "ab".data 0 2).2.1 ∧ (readDollarAndTag "ab".data 0 2).2.1 ≤ 2) ∧
    ((readDollarAndTag "ab".data 2 2).2.1 = 2 + 1) ∧
    (0 ≤ (readMultilineComment "ab".data 0 2).1 ∧ (readMultilineComment "ab".data 0 2).1 ≤ 2) ∧
    (∀ v, readVar "ab".data 0 2 = some v → v.I = 0 ∧ 0 ≤ v.End ∧ v.End ≤ 2) ∧
    (0 ≤ (readCommand "ab".data 0 2).1 ∧
      (readCommand "ab".data 0 2).1 ≤ (readCommand "ab".data 0 2).2 ∧
      (readCommand "ab".data 0 2).2 ≤ 2)) := by
  exact C10_scanner_bounds "ab".data 0 2 '\'' [] (by decide) (by decide)

/-- In-range `grab` is the buffer read. -/
theorem grab_eq_getD {r : List Char} {i e : Nat} (h : i < e) : grab r i e = r.getD i NUL := by
  rw [grab, if_pos h]

/-- Out-of-range `grab` is the zero rune. -/
theorem grab_out {r : List Char} {i e : Nat} (h : ¬ i < e) : grab r i e = NUL := by
  rw [grab, if_neg h]

/-- The zero rune is not a name character. -/
theorem isNameChar_nul : isNameChar NUL = false := by decide

/-- Name-run characterization of the bare-variable scan. -/
theorem rvLoopAux_spec (r : List Char) (e : Nat) :
    ∀ fuel j, e < fuel + j →
      (∀ k, j ≤ k → k < rvLoopAux r e fuel j → isNameChar (grab r k e) = true) ∧
      isNameChar (grab r (rvLoopAux r e fuel j) e) = false := by
  intro fuel
  induction fuel with
  | zero =>
    intro j hf
    rw [rvLoopAux]
    refine ⟨fun k hk1 hk2 => by omega, ?_⟩
    rw [grab_out (by omega)]
    exact isNameChar_nul
  | succ n ih =>
    intro j hf
    rw [rvLoopAux]
    by_cases hlt : j < e
    · rw [if_pos hlt]
      by_cases hnc : !isNameChar (grab r j e)
      · rw [if_pos hnc]
        refine ⟨fun k hk1 hk2 => by omega, by simpa using hnc⟩
      · rw [if_neg hnc]
        have hih := ih (j+1) (by omega)
        refine ⟨fun k hk1 hk2 => ?_, hih.2⟩
        rcases Nat.eq_or_lt_of_le hk1 with hk | hk
        · subst hk
          simpa using hnc
        · exact hih.1 k (by omega) hk2
    · rw [if_neg hlt]
      refine ⟨fun k hk1 hk2 => by omega, ?_⟩
      rw [grab_out hlt]
      exact isNameChar_nul

/-- `rvLoop` stays put exactly on a non-name character. -/
theorem rvLoop_eq_self_iff (r : List Char) (j e : Nat) (h : j ≤ e) :
    rvLoop r j e = j ↔ isNameChar (grab r j e) = false := by
  constructor
  · intro heq
    have := (rvLoopAux_spec r e (e + 1 - j) j (by omega)).2
    rw [rvLoop] at heq
    rw [heq] at this
    exact this
  · intro hnc
    unfold rvLoop
    rcases Nat.eq_or_lt_of_le h with he | hlt
    · subst he
      have : j + 1 - j = 1 := by omega
      rw [this, rvLoopAux, if_neg (by omega)]
    · have : e + 1 - j = (e - j) + 1 := by omega
      rw [this, rvLoopAux, if_pos hlt, if_pos (by simp [hnc])]

/-- One unfolding step of `rvLoop` inside the range. -/
theorem rvLoop_step (r : List Char) (j e : Nat) (hlt : j < e)
    (hnc : isNameChar (grab r j e) = true) :
    rvLoop r j e = rvLoop r (j+1) e := by
  unfold rvLoop
  have h1 : e + 1 - j = (e - j) + 1 := by omega
  have h2 : e - j = e + 1 - (j + 1) := by omega
  rw [h1, rvLoopAux, if_pos hlt, if_neg (by simp [hnc]), h2]

/-- Found-case specification of `findRune`: first occurrence of `c`. -/
theorem findRuneAux_found (r : List Char) (e : Nat) (c : Char) :
    ∀ fuel j, (findRuneAux r e c fuel j).2 = true →
      j ≤ (findRuneAux r e c fuel j).1 ∧ (findRuneAux r e c fuel j).1 < e ∧
      r.getD (findRuneAux r e c fuel j).1 NUL = c ∧
      (∀ m, j ≤ m → m < (findRuneAux r e c fuel j).1 → r.getD m NUL ≠ c) := by
  intro fuel
  induction fuel with
  | zero =>
    intro j hf
    rw [findRuneAux] at hf ⊢
    simp at hf
  | succ n ih =>
    intro j hf
    rw [findRuneAux] at hf ⊢
    by_cases hlt : j < e
    · rw [if_pos hlt] at hf ⊢
      by_cases hd : r.getD j NUL = c
      · rw [if_pos hd] at hf ⊢
        exact ⟨by omega, hlt, hd, fun m hm1 hm2 => by omega⟩
      · rw [if_neg hd] at hf ⊢
        have hih := ih (j+1) hf
        refine ⟨by omega, hih.2.1, hih.2.2.1, fun m hm1 hm2 => ?_⟩
        rcases Nat.eq_or_lt_of_le hm1 with hm | hm
        · subst hm
          exact hd
        · exact hih.2.2.2 m (by omega) hm2
    · rw [if_neg hlt] at hf
      simp at hf

/-- Not-found-case specification of `findRune`: no occurrence in range. -/
theorem findRuneAux_notFound (r : List Char) (e : Nat) (c : Char) :
    ∀ fuel j, e < fuel + j → (findRuneAux r e c fuel j).2 = false →
      ∀ m, j ≤ m → m < e → r.getD m NUL ≠ c := by
  intro fuel
  induction fuel with
  | zero =>
    intro j hf _ m hm1 hm2
    omega
  | succ n ih =>
    intro j hf hnf m hm1 hm2
    rw [findRuneAux] at hnf
    by_cases hlt : j < e
    · rw [if_pos hlt] at hnf
      by_cases hd : r.getD j NUL = c
      · rw [if_pos hd] at hnf
        simp at hnf
      · rw [if_neg hd] at hnf
        rcases Nat.eq_or_lt_of_le hm1 with hm | hm
        · subst hm
          exact hd
        · exact ih (j+1) (by omega) hnf m (by omega) hm2
    · omega

/-- The quoted-variable scan is `findRune` followed by the
too-short/`Var`-building post-processing. -/
theorem rsvLoopAux_eq (r : List Char) (s : Nat) (q : Char) (e : Nat) :
    ∀ fuel j, rsvLoopAux r s q e fuel j =
      (if (findRuneAux r e q fuel j).2 then
        (if (findRuneAux r e q fuel j).1 - s < 3 then none
         else some { I := s, End := (findRuneAux r e q fuel j).1 + 1, Quote := q
                   , Name := listSlice r (s+2) (findRuneAux r e q fuel j).1
                   , Len := 0, Defined := false })
       else none) := by
  intro fuel
  induction fuel with
  | zero =>
    intro j
    rw [rsvLoopAux, findRuneAux]
    simp
  | succ n ih =>
    intro j
    rw [rsvLoopAux, findRuneAux]
    by_cases hlt : j < e
    · rw [if_pos hlt, if_pos hlt]
      by_cases hd : r.getD j NUL = q
      · rw [if_pos hd, if_pos (by rw [grab_eq_getD hlt]; exact hd)]
        simp
      · rw [if_neg hd, if_neg (by rw [grab_eq_getD hlt]; exact hd)]
        exact ih (j+1)
    · rw [if_neg hlt, if_neg hlt]
      simp

/-- C7 (confirmed): with a `:` at `i`, `readVar` returns no variable
exactly when the next rune is another `:`, when a bare name has zero
name characters, or when a quoted form has no closing quote before the
end or nothing between the quotes; otherwise the `Var` starts at the
colon, its `End` is one past the name run (bare) or one past the first
closing quote (quoted), and its quote is 0, `'` or `"`. -/
theorem C7_readVar_characterization (r : List Char) (i e : Nat) (hcolon : grab r i e = ':') :
    (readVar r i e = none ↔
      grab r (i+1) e = ':' ∨
      ((grab r (i+1) e = '\'' ∨ grab r (i+1) e = '"') ∧
        (¬ (findRune r (i+2) e (grab r (i+1) e)).2 = true ∨
          (findRune r (i+2) e (grab r (i+1) e)).1 = i + 2)) ∨
      (grab r (i+1) e ≠ ':' ∧ grab r (i+1) e ≠ '\'' ∧ grab r (i+1) e ≠ '"' ∧
        isNameChar (grab r (i+1) e) = false)) ∧
    (∀ v, readVar r i e = some v →
      v.I = i ∧ (v.Quote = NUL ∨ v.Quote = '\'' ∨ v.Quote = '"') ∧ v.End ≤ e ∧
      (v.Quote = NUL →
        i + 2 ≤ v.End ∧
        (∀ k, i + 1 ≤ k → k < v.End → isNameChar (grab r k e) = true) ∧
        isNameChar (grab r v.End e) = false) ∧
      (v.Quote ≠ NUL →
        v.Quote = grab r (i+1) e ∧ i + 4 ≤ v.End ∧
        r.getD (v.End - 1) NUL = v.Quote ∧
        (∀ m, i + 2 ≤ m → m < v.End - 1 → r.getD m NUL ≠ v.Quote))) := by
  have hi : i < e := grab_ne_nul (by rw [hcolon]; decide)
  constructor
  · by_cases hnext : grab r (i+1) e = ':'
    · unfold readVar
      rw [if_pos (Or.inr hnext)]
      exact ⟨fun _ => Or.inl hnext, fun _ => rfl⟩
    · by_cases hq : grab r (i+1) e = '"' ∨ grab r (i+1) e = '\''
      · -- quoted: the length guard cannot fire since next is a real quote
        have hlt1 : i + 1 < e := by
          have hnn : grab r (i+1) e ≠ NUL := by
            rcases hq with hq | hq <;> rw [hq] <;> decide
          exact grab_ne_nul hnn
        unfold readVar
        rw [if_neg (by simp [hcolon, hnext]), if_neg (by omega), if_pos hq,
          readStringVar, rsvLoop, rsvLoopAux_eq]
        constructor
        · intro hnone
          refine Or.inr (Or.inl ⟨hq.symm.imp id id, ?_⟩)
          by_cases hfound : (findRuneAux r e (grab r (i+1) e) (e + 1 - (i+2)) (i+2)).2 = true
          · rw [if_pos hfound] at hnone
            have hspec := findRuneAux_found r e (grab r (i+1) e) (e + 1 - (i+2)) (i+2) hfound
            split at hnone
            · rename_i hlen
              right
              show (findRune r (i+2) e (grab r (i+1) e)).1 = i + 2
              unfold findRune
              omega
            · simp at hnone
          · left
            show ¬ (findRune r (i+2) e (grab r (i+1) e)).2 = true
            unfold findRune
            exact hfound
        · intro hdisj
          rcases hdisj with hd | ⟨_, hd⟩ | hd
          · exact absurd hd hnext
          · rcases hd with hnf | hat
            · rw [if_neg (by unfold findRune at hnf; exact hnf)]
            · unfold findRune at hat
              by_cases hfound : (findRuneAux r e (grab r (i+1) e) (e + 1 - (i+2)) (i+2)).2 = true
              · rw [if_pos hfound, if_pos (by omega)]
              · rw [if_neg hfound]
          · rcases hq with hq | hq
            · exact absurd hq hd.2.2.1
            · exact absurd hq hd.2.1
      · -- bare
        push_neg at hq
        by_cases hshort : e - i < 2
        · unfold readVar
          rw [if_neg (by simp [hcolon, hnext]), if_pos hshort]
          have hgn : grab r (i+1) e = NUL := grab_out (by omega)
          constructor
          · intro _
            exact Or.inr (Or.inr ⟨hnext, hq.2, hq.1, by rw [hgn]; exact isNameChar_nul⟩)
          · intro _
            rfl
        · unfold readVar
          rw [if_neg (by simp [hcolon, hnext]), if_neg hshort,
            if_neg (by push_neg; exact hq)]
          have hb := rvLoop_bounds r (i+1) e (by omega)
          constructor
          · intro hnone
            split at hnone
            · rename_i hlen
              have heq : rvLoop r (i+1) e = i + 1 := by omega
              have := (rvLoop_eq_self_iff r (i+1) e (by omega)).mp heq
              exact Or.inr (Or.inr ⟨hnext, hq.2, hq.1, this⟩)
            · simp at hnone
          · intro hdisj
            rcases hdisj with hd | ⟨hd, _⟩ | hd
            · exact absurd hd hnext
            · rcases hd with hd | hd
              · exact absurd hd hq.2
              · exact absurd hd hq.1
            · have heq := (rvLoop_eq_self_iff r (i+1) e (by omega)).mpr hd.2.2.2
              rw [if_pos (by omega)]
  · intro v hv
    unfold readVar at hv
    split at hv
    · exact absurd hv (by simp)
    · split at hv
      · exact absurd hv (by simp)
      · rename_i hguard hlen
        split at hv
        · rename_i hq
          rw [readStringVar, rsvLoop, rsvLoopAux_eq] at hv
          by_cases hfound : (findRuneAux r e (grab r (i+1) e) (e + 1 - (i+2)) (i+2)).2 = true
          · rw [if_pos hfound] at hv
            have hspec := findRuneAux_found r e (grab r (i+1) e) (e + 1 - (i+2)) (i+2) hfound
            split at hv
            · exact absurd hv (by simp)
            · rename_i hlen3
              simp only [Option.some.injEq] at hv
              subst hv
              have hqn : grab r (i+1) e ≠ NUL := by
                rcases hq with hq | hq <;> rw [hq] <;> decide
              refine ⟨rfl, ?_, ?_, ?_, ?_⟩
              · rcases hq with hq | hq
                · exact Or.inr (Or.inr hq)
                · exact Or.inr (Or.inl hq)
              · show (findRuneAux r e (grab r (i+1) e) (e + 1 - (i+2)) (i+2)).1 + 1 ≤ e
                omega
              · intro hz
                exact absurd hz (by simpa using hqn)
              · intro _
                refine ⟨rfl, by dsimp only; omega, ?_, ?_⟩
                · dsimp only
                  have : (findRuneAux r e (grab r (i+1) e) (e + 1 - (i+2)) (i+2)).1 + 1 - 1 =
                      (findRuneAux r e (grab r (i+1) e) (e + 1 - (i+2)) (i+2)).1 := by omega
                  rw [this]
                  exact hspec.2.2.1
                · intro m hm1 hm2
                  dsimp only at hm2
                  exact hspec.2.2.2 m hm1 (by omega)
          · rw [if_neg hfound] at hv
            exact absurd hv (by simp)
        · split at hv
          · exact absurd hv (by simp)
          · rename_i hq hlen2
            simp only [Option.some.injEq] at hv
            subst hv
            have hb := rvLoop_bounds r (i+1) e (by omega)
            have hspec := rvLoopAux_spec r e (e + 1 - (i+1)) (i+1) (by omega)
            refine ⟨rfl, Or.inl rfl, by dsimp only; omega, ?_, ?_⟩
            · intro _
              refine ⟨by dsimp only; omega, ?_, ?_⟩
              · intro k hk1 hk2
                dsimp only at hk2
                exact hspec.1 k hk1 hk2
              · dsimp only
                exact hspec.2
            · intro hz
              exact absurd rfl hz


/-- C7 (witness): the characterization applied to `:'ab'x`. -/
theorem C7_readVar_witness :
    (readVar ":'ab'x".data 0 6 = none ↔
      grab ":'ab'x".data 1 6 = ':' ∨
      ((grab ":'ab'x".data 1 6 = '\'' ∨ grab ":'ab'x".data 1 6 = '"') ∧
        (¬ (findRune ":'ab'x".data 2 6 (grab ":'ab'x".data 1 6)).2 = true ∨
          (findRune ":'ab'x".data 2 6 (grab ":'ab'x".data 1 6)).1 = 0 + 2)) ∨
      (grab ":'ab'x".data 1 6 ≠ ':' ∧ grab ":'ab'x".data 1 6 ≠ '\'' ∧
        grab ":'ab'x".data 1 6 ≠ '"' ∧ isNameChar (grab ":'ab'x".data 1 6) = false)) ∧
    (∀ v, readVar ":'ab'x".data 0 6 = some v →
      v.I = 0 ∧ (v.Quote = NUL ∨ v.Quote = '\'' ∨ v.Quote = '"') ∧ v.End ≤ 6 ∧
      (v.Quote = NUL →
        0 + 2 ≤ v.End ∧
        (∀ k, 0 + 1 ≤ k → k < v.End → isNameChar (grab ":'ab'x".data k 6) = true) ∧
        isNameChar (grab ":'ab'x".data v.End 6) = false) ∧
      (v.Quote ≠ NUL →
        v.Quote = grab ":'ab'x".data 1 6 ∧ 0 + 4 ≤ v.End ∧
        ":'ab'x".data.getD (v.End - 1) NUL = v.Quote ∧
        (∀ m, 0 + 2 ≤ m → m < v.End - 1 → ":'ab'x".data.getD m NUL ≠ v.Quote))) := by
  have h := C7_readVar_characterization ":'ab'x".data 0 6 (by decide)
  simpa using h

/-! ### The command/params shape and the ready transition of Next -/

theorem listSlice_getD_zero (r : List Char) (i b : Nat) (d : Char) (h1 : i < b) :
    (listSlice r i b).getD 0 d = r.getD i d := by
  simp [listSlice, List.getD, List.getElem?_take, h1]

theorem listSlice_length (r : List Char) (i b : Nat) :
    (listSlice r i b).length = min b r.length - i := by
  simp [listSlice]

theorem listSlice_ne_nil (r : List Char) (i b : Nat) (h1 : i < b) (h2 : i < r.length) :
    listSlice r i b ≠ [] := by
  have := listSlice_length r i b
  intro hcon
  rw [hcon] at this
  simp at this
  omega

theorem substituteVar_len (r : List Char) (v : Var) (z : List Char)
    (h1 : v.I ≤ v.End) (h2 : v.End ≤ r.length) :
    (substituteVar r v z).2.1 = (substituteVar r v z).1.length := by
  simp [substituteVar]
  omega

theorem rcCmdAux_base (r : List Char) (e : Nat) (fuel j : Nat) (h : ¬ j < e) :
    rcCmdAux r e fuel j = .inr j := by
  cases fuel with
  | zero => rw [rcCmdAux]
  | succ n => rw [rcCmdAux, if_neg h]

theorem rcCmdAux_gt (r : List Char) (e : Nat) :
    ∀ fuel i, e < fuel + i → i < e →
      (∀ p, rcCmdAux r e fuel i = .inl p → i < p.1) ∧
      (∀ j, rcCmdAux r e fuel i = .inr j → i < j) := by
  intro fuel
  induction fuel with
  | zero =>
    intro i hf hlt
    omega
  | succ n ih =>
    intro i hf hlt
    rw [rcCmdAux, if_pos hlt]
    by_cases hn : grab r (i+1) e = NUL
    · rw [if_pos hn]
      refine ⟨fun p hp => ?_, fun j hj => by simp at hj⟩
      simp only [Sum.inl.injEq] at hp
      subst hp
      omega
    · rw [if_neg hn]
      by_cases hbs : grab r (i+1) e = '\\' ∨ isControl (grab r (i+1) e)
      · rw [if_pos hbs]
        refine ⟨fun p hp => ?_, fun j hj => by simp at hj⟩
        simp only [Sum.inl.injEq] at hp
        subst hp
        omega
      · rw [if_neg hbs]
        by_cases hsp : isSpace (grab r (i+1) e) = true
        · rw [if_pos hsp]
          refine ⟨fun p hp => by simp at hp, fun j hj => ?_⟩
          simp only [Sum.inr.injEq] at hj
          omega
        · rw [if_neg hsp]
          by_cases h2 : i + 1 < e
          · have hih := ih (i+1) (by omega) h2
            refine ⟨fun p hp => ?_, fun j hj => ?_⟩
            · have := hih.1 p hp
              omega
            · have := hih.2 j hj
              omega
          · rw [rcCmdAux_base r e n (i+1) h2]
            refine ⟨fun p hp => by simp at hp, fun j hj => ?_⟩
            simp only [Sum.inr.injEq] at hj
            omega

theorem readCommand_fst_gt (r : List Char) (i e : Nat) (h : i < e) :
    i < (readCommand r i e).1 := by
  have hg := rcCmdAux_gt r e (e + 1 - i) i (by omega) h
  have hb := rcCmdAux_bounds r e (e + 1 - i) i (by omega)
  unfold readCommand rcCmdLoop
  cases hc : rcCmdAux r e (e + 1 - i) i with
  | inl p =>
    have := hg.1 p hc
    dsimp only
    omega
  | inr j =>
    have h1 := hg.2 j hc
    have h2 := hb.2 j hc
    have h3 := rcParamsAux_bounds r j e (e + 1 - j) NUL j (by omega)
    dsimp only
    unfold rcParamsLoop
    omega

/-- Shape of a parse-loop result: either no command fired (both parts
empty) or the command token is non-empty and starts with a backslash. -/
theorem parseLoop_cmd (u : Unq) :
    ∀ fuel b i res, b.rlen = b.r.length → parseLoop u fuel b i = some res →
      (res.1 = [] ∧ res.2.1 = []) ∨ (res.1 ≠ [] ∧ res.1.getD 0 NUL = '\\') := by
  intro fuel
  induction fuel with
  | zero =>
    intro b i res h hres
    rw [parseLoop] at hres
    exact absurd hres (by simp)
  | succ n ih =>
    intro b i res h hres
    rw [parseLoop] at hres
    by_cases h0 : i < b.rlen
    · rw [if_pos h0] at hres
      by_cases h1 : b.quote ≠ NUL
      · rw [if_pos h1] at hres
        exact ih _ _ _ (by first | exact h | (split <;> exact h)) hres
      · rw [if_neg h1] at hres
        by_cases h2 : b.multilineComment = true
        · rw [if_pos h2] at hres
          exact ih _ _ _ (by first | exact h | (split <;> exact h)) hres
        · rw [if_neg h2] at hres
          by_cases h3 : b.r.getD i NUL = '\'' ∨ b.r.getD i NUL = '"'
          · rw [if_pos h3] at hres
            exact ih _ _ _ (by first | exact h | (split <;> exact h)) hres
          · rw [if_neg h3] at hres
            by_cases h4 : b.r.getD i NUL = '$' ∧ (grab b.r (i+1) b.rlen = '$' ∨
                grab b.r (i+1) b.rlen = '_' ∨ isLetter (grab b.r (i+1) b.rlen))
            · rw [if_pos h4] at hres
              exact ih _ _ _ (by first | exact h | (split <;> exact h)) hres
            · rw [if_neg h4] at hres
              by_cases h5 : b.r.getD i NUL = '-' ∧ grab b.r (i+1) b.rlen = '-'
              · rw [if_pos h5] at hres
                exact ih _ _ _ (by first | exact h | (split <;> exact h)) hres
              · rw [if_neg h5] at hres
                by_cases h6 : b.r.getD i NUL = '/' ∧ grab b.r (i+1) b.rlen = '/'
                · rw [if_pos h6] at hres
                  exact ih _ _ _ (by first | exact h | (split <;> exact h)) hres
                · rw [if_neg h6] at hres
                  by_cases h7 : b.r.getD i NUL = '#'
                  · rw [if_pos h7] at hres
                    exact ih _ _ _ (by first | exact h | (split <;> exact h)) hres
                  · rw [if_neg h7] at hres
                    by_cases h8 : b.r.getD i NUL = '/' ∧ grab b.r (i+1) b.rlen = '*'
                    · rw [if_pos h8] at hres
                      exact ih _ _ _ (by first | exact h | (split <;> exact h)) hres
                    · rw [if_neg h8] at hres
                      by_cases h9 : b.r.getD i NUL = ':' ∧ grab b.r (i+1) b.rlen ≠ ':'
                      · rw [if_pos h9] at hres
                        cases hrv : readVar b.r i b.rlen with
                        | none =>
                          simp only [hrv] at hres
                          exact ih _ _ _ (by first | exact h | (split <;> exact h)) hres
                        | some v =>
                          simp only [hrv] at hres
                          have hvb := readVar_bounds b.r i b.rlen v hrv
                          by_cases hok : (u (unquoteArg v) true).1 = true
                          · rw [if_pos hok] at hres
                            refine ih _ _ _ ?_ hres
                            show (substituteVar b.r _ _).2.1 = (substituteVar b.r _ _).1.length
                            refine substituteVar_len _ _ _ ?_ ?_
                            · show v.I ≤ v.End
                              omega
                            · show v.End ≤ b.r.length
                              omega
                          · rw [if_neg hok] at hres
                            exact ih _ _ _ (by first | exact h | (split <;> exact h)) hres
                      · rw [if_neg h9] at hres
                        by_cases h10 : b.r.getD i NUL = '('
                        · rw [if_pos h10] at hres
                          exact ih _ _ _ (by first | exact h | (split <;> exact h)) hres
                        · rw [if_neg h10] at hres
                          by_cases h11 : b.r.getD i NUL = ')'
                          · rw [if_pos h11] at hres
                            exact ih _ _ _ (by first | exact h | (split <;> exact h)) hres
                          · rw [if_neg h11] at hres
                            by_cases h12 : b.quote ≠ NUL ∨ b.multilineComment = true ∨
                                b.balanceCount ≠ 0
                            · rw [if_pos h12] at hres
                              exact ih _ _ _ (by first | exact h | (split <;> exact h)) hres
                            · rw [if_neg h12] at hres
                              by_cases h13 : b.r.getD i NUL = '\\' ∧
                                  (grab b.r (i+1) b.rlen = '\\' ∨ grab b.r (i+1) b.rlen = ';' ∨
                                    grab b.r (i+1) b.rlen = ':')
                              · rw [if_pos h13] at hres
                                refine ih _ _ _ ?_ hres
                                show (substituteVar b.r _ _).2.1 =
                                  (substituteVar b.r _ _).1.length
                                refine substituteVar_len _ _ _ (by simp) ?_
                                have hnn : grab b.r (i+1) b.rlen ≠ NUL := by
                                  rcases h13.2 with hx | hx | hx <;> rw [hx] <;> decide
                                have := grab_ne_nul hnn
                                show i + 2 ≤ b.r.length
                                omega
                              · rw [if_neg h13] at hres
                                by_cases h14 : b.r.getD i NUL = '\\'
                                · rw [if_pos h14] at hres
                                  simp only [Option.some.injEq] at hres
                                  subst hres
                                  right
                                  unfold cmdStep
                                  have hgt := readCommand_fst_gt b.r i b.rlen h0
                                  constructor
                                  · exact listSlice_ne_nil _ _ _ hgt (by omega)
                                  · rw [listSlice_getD_zero _ _ _ _ hgt]
                                    exact h14
                                · rw [if_neg h14] at hres
                                  by_cases h15 : b.r.getD i NUL = ';'
                                  · rw [if_pos h15] at hres
                                    simp only [Option.some.injEq] at hres
                                    subst hres
                                    left
                                    exact ⟨rfl, rfl⟩
                                  · rw [if_neg h15] at hres
                                    exact ih _ _ _ (by first | exact h | (split <;> exact h)) hres
    · rw [if_neg h0] at hres
      simp only [Option.some.injEq] at hres
      subst hres
      left
      exact ⟨rfl, rfl⟩

theorem Append_preserves (b : Stmt) (r sep : List Char) :
    (b.Append r sep).quote = b.quote ∧
    (b.Append r sep).quoteDollarTag = b.quoteDollarTag ∧
    (b.Append r sep).multilineComment = b.multilineComment ∧
    (b.Append r sep).balanceCount = b.balanceCount ∧
    (b.Append r sep).ready = b.ready ∧
    (b.Append r sep).r = b.r ∧ (b.Append r sep).rlen = b.rlen := by
  cases hb : b.Buf <;> simp [Stmt.Append, hb]

theorem nextBody_fields (fuel : Nat) (b : Stmt) (u : Unq) :
    ∀ res, Stmt.nextBody fuel b u = some res →
      ∃ c p b2 i2, parseLoop u fuel b 0 = some (c, p, b2, i2) ∧
        res.1.1 = String.mk c ∧ res.1.2.1 = String.mk p ∧ res.1.2.2 = none ∧
        res.2.quote = b2.quote ∧ res.2.quoteDollarTag = b2.quoteDollarTag ∧
        res.2.multilineComment = b2.multilineComment ∧
        res.2.balanceCount = b2.balanceCount ∧ res.2.ready = b2.ready ∧
        res.2.r = b2.r.drop (min i2 b2.rlen) ∧
        res.2.rlen = (b2.r.drop (min i2 b2.rlen)).length := by
  intro res hres
  unfold Stmt.nextBody at hres
  cases hpl : parseLoop u fuel b 0 with
  | none =>
    rw [hpl] at hres
    exact absurd hres (by simp)
  | some q =>
    obtain ⟨c, p, b2, i2⟩ := q
    rw [hpl] at hres
    dsimp only at hres
    injection hres with h
    subst h
    refine ⟨c, p, b2, i2, rfl, rfl, rfl, rfl, ?_, ?_, ?_, ?_, ?_, ?_, ?_⟩ <;>
    · dsimp only
      split
      · cases hb : b2.Buf <;> simp [Stmt.Append, hb]
      · rfl

theorem String_mk_eq_empty_iff (l : List Char) : String.mk l = "" ↔ l = [] := by
  constructor
  · intro h
    exact congrArg String.data h
  · intro h
    subst h
    rfl

theorem parseLoop_ready (u : Unq) :
    ∀ fuel b i res, b.ready = false → parseLoop u fuel b i = some res →
      res.2.2.1.ready = true →
      res.2.2.1.quote = NUL ∧ res.2.2.1.multilineComment = false ∧
        res.2.2.1.balanceCount = 0 := by
  intro fuel
  induction fuel with
  | zero =>
    intro b i res hb hres hr1
    rw [parseLoop] at hres
    exact absurd hres (by simp)
  | succ n ih =>
    intro b i res hb hres hr1
    rw [parseLoop] at hres
    by_cases h0 : i < b.rlen
    · rw [if_pos h0] at hres
      by_cases h1 : b.quote ≠ NUL
      · rw [if_pos h1] at hres
        exact ih _ _ _ (by first | exact hb | (split <;> exact hb)) hres hr1
      · rw [if_neg h1] at hres
        by_cases h2 : b.multilineComment = true
        · rw [if_pos h2] at hres
          exact ih _ _ _ (by first | exact hb | (split <;> exact hb)) hres hr1
        · rw [if_neg h2] at hres
          by_cases h3 : b.r.getD i NUL = '\'' ∨ b.r.getD i NUL = '"'
          · rw [if_pos h3] at hres
            exact ih _ _ _ (by first | exact hb | (split <;> exact hb)) hres hr1
          · rw [if_neg h3] at hres
            by_cases h4 : b.r.getD i NUL = '$' ∧ (grab b.r (i+1) b.rlen = '$' ∨
                grab b.r (i+1) b.rlen = '_' ∨ isLetter (grab b.r (i+1) b.rlen))
            · rw [if_pos h4] at hres
              exact ih _ _ _ (by first | exact hb | (split <;> exact hb)) hres hr1
            · rw [if_neg h4] at hres
              by_cases h5 : b.r.getD i NUL = '-' ∧ grab b.r (i+1) b.rlen = '-'
              · rw [if_pos h5] at hres
                exact ih _ _ _ (by first | exact hb | (split <;> exact hb)) hres hr1
              · rw [if_neg h5] at hres
                by_cases h6 : b.r.getD i NUL = '/' ∧ grab b.r (i+1) b.rlen = '/'
                · rw [if_pos h6] at hres
                  exact ih _ _ _ (by first | exact hb | (split <;> exact hb)) hres hr1
                · rw [if_neg h6] at hres
                  by_cases h7 : b.r.getD i NUL = '#'
                  · rw [if_pos h7] at hres
                    exact ih _ _ _ (by first | exact hb | (split <;> exact hb)) hres hr1
                  · rw [if_neg h7] at hres
                    by_cases h8 : b.r.getD i NUL = '/' ∧ grab b.r (i+1) b.rlen = '*'
                    · rw [if_pos h8] at hres
                      exact ih _ _ _ (by first | exact hb | (split <;> exact hb)) hres hr1
                    · rw [if_neg h8] at hres
                      by_cases h9 : b.r.getD i NUL = ':' ∧ grab b.r (i+1) b.rlen ≠ ':'
                      · rw [if_pos h9] at hres
                        cases hrv : readVar b.r i b.rlen with
                        | none =>
                          simp only [hrv] at hres
                          exact ih _ _ _ (by first | exact hb | (split <;> exact hb)) hres hr1
                        | some v =>
                          simp only [hrv] at hres
                          by_cases hok : (u (unquoteArg v) true).1 = true
                          · rw [if_pos hok] at hres
                            exact ih _ _ _ (by first | exact hb | (split <;> exact hb)) hres hr1
                          · rw [if_neg hok] at hres
                            exact ih _ _ _ (by first | exact hb | (split <;> exact hb)) hres hr1
                      · rw [if_neg h9] at hres
                        by_cases h10 : b.r.getD i NUL = '('
                        · rw [if_pos h10] at hres
                          exact ih _ _ _ (by first | exact hb | (split <;> exact hb)) hres hr1
                        · rw [if_neg h10] at hres
                          by_cases h11 : b.r.getD i NUL = ')'
                          · rw [if_pos h11] at hres
                            exact ih _ _ _ (by first | exact hb | (split <;> exact hb)) hres hr1
                          · rw [if_neg h11] at hres
                            by_cases h12 : b.quote ≠ NUL ∨ b.multilineComment = true ∨
                                b.balanceCount ≠ 0
                            · rw [if_pos h12] at hres
                              exact ih _ _ _ (by first | exact hb | (split <;> exact hb)) hres hr1
                            · rw [if_neg h12] at hres
                              by_cases h13 : b.r.getD i NUL = '\\' ∧
                                  (grab b.r (i+1) b.rlen = '\\' ∨ grab b.r (i+1) b.rlen = ';' ∨
                                    grab b.r (i+1) b.rlen = ':')
                              · rw [if_pos h13] at hres
                                exact ih _ _ _ (by first | exact hb | (split <;> exact hb)) hres hr1
                              · rw [if_neg h13] at hres
                                by_cases h14 : b.r.getD i NUL = '\\'
                                · rw [if_pos h14] at hres
                                  simp only [Option.some.injEq] at hres
                                  subst hres
                                  have h' : b.ready = true := hr1
                                  rw [hb] at h'
                                  exact absurd h' (by decide)
                                · rw [if_neg h14] at hres
                                  by_cases h15 : b.r.getD i NUL = ';'
                                  · rw [if_pos h15] at hres
                                    simp only [Option.some.injEq] at hres
                                    subst hres
                                    push_neg at h12
                                    obtain ⟨hq, hm, hbal⟩ := h12
                                    refine ⟨hq, ?_, hbal⟩
                                    show b.multilineComment = false
                                    simpa using hm
                                  · rw [if_neg h15] at hres
                                    exact ih _ _ _ (by first | exact hb | (split <;> exact hb)) hres hr1
    · rw [if_neg h0] at hres
      simp only [Option.some.injEq] at hres
      subst hres
      have h' : b.ready = true := hr1
      rw [hb] at h'
      exact absurd h' (by decide)

/-- C4 (amended): when `Next` is called on a state that is not ready
and returns with `ready` set, the lexical state is clean: no open
quote, no open multiline comment, paren depth 0.  (The original claim
is refuted by `C4_counterexample`: a quote can open at paren depth
> 0 within one call, and calling `Next` again without `Reset` on an
already-ready state can open a substate while `ready` stays true.) -/
theorem C4_ready_trans (fuel : Nat) (b : Stmt) (u : Unq)
    (res : (String × String × Option GoError) × Stmt)
    (hn : Stmt.NextF fuel b u = some res)
    (hr0 : b.ready = false) (hr1 : res.2.ready = true) :
    res.2.quote = NUL ∧ res.2.multilineComment = false ∧ res.2.balanceCount = 0 := by
  unfold Stmt.NextF at hn
  by_cases h0 : b.rlen = 0
  · rw [if_pos h0] at hn
    rcases hsrc : srcNext b.src with ⟨r0, src1⟩
    cases r0 with
    | error err =>
      rw [hsrc] at hn
      simp only [Option.some.injEq] at hn
      subst hn
      have h' : b.ready = true := hr1
      rw [hr0] at h'
      exact absurd h' (by decide)
    | ok rs =>
      rw [hsrc] at hn
      obtain ⟨c, p, b2, i2, hpl, -, -, -, hq, -, hm, hbal, hrd, -, -⟩ :=
        nextBody_fields fuel _ u _ hn
      have hmain := parseLoop_ready u fuel
          { b with src := src1, r := rs, rlen := rs.length } 0 _ hr0 hpl (hrd ▸ hr1)
      exact ⟨hq.trans hmain.1, hm.trans hmain.2.1, hbal.trans hmain.2.2⟩
  · rw [if_neg h0] at hn
    obtain ⟨c, p, b2, i2, hpl, -, -, -, hq, -, hm, hbal, hrd, -, -⟩ :=
      nextBody_fields fuel b u _ hn
    have hmain := parseLoop_ready u fuel b 0 _ hr0 hpl (hrd ▸ hr1)
    exact ⟨hq.trans hmain.1, hm.trans hmain.2.1, hbal.trans hmain.2.2⟩

/-- C4 witness: `Next` on the single line `x;` sets `ready` with a
clean lexical state. -/
theorem C4_ready_trans_witness :
    ((Stmt.NextF 8 (NewStmt (linesSrc ["x;"])) declineU).get (by rfl)).2.quote = NUL ∧
    ((Stmt.NextF 8 (NewStmt (linesSrc ["x;"])) declineU).get (by rfl)).2.multilineComment
      = false ∧
    ((Stmt.NextF 8 (NewStmt (linesSrc ["x;"])) declineU).get (by rfl)).2.balanceCount = 0 :=
  C4_ready_trans 8 (NewStmt (linesSrc ["x;"])) declineU _ (Option.some_get _).symm rfl
    (by rfl)

/-- C4 counterexample: `Next` on the line `('` leaves both paren depth
1 and an open `'` quote (two substates at once); and two `Next` calls
on the line `x;(` without an intervening `Reset` leave `ready` true
with paren depth 1 (`ready` true while a substate is active). -/
theorem C4_counterexample :
    (((Stmt.NextF 8 (NewStmt (linesSrc ["('"])) declineU).get (by rfl)).2.balanceCount = 1 ∧
      ((Stmt.NextF 8 (NewStmt (linesSrc ["('"])) declineU).get (by rfl)).2.quote = '\'') ∧
    (((Stmt.NextF 8 ((Stmt.NextF 8 (NewStmt (linesSrc ["x;("])) declineU).get
          (by rfl)).2 declineU).get (by rfl)).2.ready = true ∧
      ((Stmt.NextF 8 ((Stmt.NextF 8 (NewStmt (linesSrc ["x;("])) declineU).get
          (by rfl)).2 declineU).get (by rfl)).2.balanceCount = 1) :=
  ⟨⟨rfl, rfl⟩, rfl, rfl⟩

/-- C9 (confirmed): a `Next` call that returns a nil error returns an
empty `params` whenever `cmd` is empty, and a non-empty `params` only
together with a non-empty `cmd` starting with a backslash. -/
theorem C9_cmd_params (fuel : Nat) (b : Stmt) (u : Unq) (cmd params : String)
    (hwf : b.rlen = b.r.length)
    (hn : (Stmt.NextF fuel b u).map (fun res => res.1) = some (cmd, params, none)) :
    (cmd = "" → params = "") ∧
    (params ≠ "" → cmd ≠ "" ∧ cmd.data.getD 0 NUL = '\\') := by
  cases hfull : Stmt.NextF fuel b u with
  | none =>
    rw [hfull] at hn
    exact absurd hn (by simp)
  | some res =>
    obtain ⟨res1, b2⟩ := res
    rw [hfull] at hn
    simp only [Option.map_some', Option.some.injEq] at hn
    subst hn
    have hn := hfull
    have key : ∀ b1 : Stmt, b1.rlen = b1.r.length →
        Stmt.nextBody fuel b1 u = some ((cmd, params, none), b2) →
        (cmd = "" → params = "") ∧
        (params ≠ "" → cmd ≠ "" ∧ cmd.data.getD 0 NUL = '\\') := by
      intro b1 hwf1 hb1
      obtain ⟨c, p, b2', i2, hpl, hc, hp, -, -, -, -, -, -, -, -⟩ :=
        nextBody_fields fuel b1 u _ hb1
      have hshape := parseLoop_cmd u fuel b1 0 (c, p, b2', i2) hwf1 hpl
      have hc' : cmd = String.mk c := hc
      have hp' : params = String.mk p := hp
      subst hc'
      subst hp'
      rcases hshape with ⟨hc0, hp0⟩ | ⟨hne, hhd⟩
      · rw [show (c, p, b2', i2).1 = c from rfl] at hc0
        rw [show (c, p, b2', i2).2.1 = p from rfl] at hp0
        subst hc0
        subst hp0
        exact ⟨fun _ => rfl, fun hcontra => absurd rfl hcontra⟩
      · rw [show (c, p, b2', i2).1 = c from rfl] at hne hhd
        constructor
        · intro hcontra
          exact absurd ((String_mk_eq_empty_iff c).mp hcontra) hne
        · intro _
          refine ⟨?_, hhd⟩
          intro hcontra
          exact absurd ((String_mk_eq_empty_iff c).mp hcontra) hne
    unfold Stmt.NextF at hn
    by_cases h0 : b.rlen = 0
    · rw [if_pos h0] at hn
      rcases hsrc : srcNext b.src with ⟨r0, src1⟩
      cases r0 with
      | error err =>
        rw [hsrc] at hn
        exact absurd hn (by simp)
      | ok rs =>
        rw [hsrc] at hn
        exact key _ rfl hn
    · rw [if_neg h0] at hn
      exact key b hwf hn

/-- C9 witness: the line `\p zz` yields `cmd = "\p"`, a non-empty
`params` and a nil error. -/
theorem C9_cmd_params_witness :
    (("\\p" : String) = "" → (" zz" : String) = "") ∧
    ((" zz" : String) ≠ "" → ("\\p" : String) ≠ "" ∧
      ("\\p" : String).data.getD 0 NUL = '\\') :=
  C9_cmd_params 8 (NewStmt (linesSrc ["\\p zz"])) declineU "\\p" " zz" rfl (by rfl)

/-! ### The dollar-quoted literal scan of readString -/

/-- When the `readString` loop fails to find the closing delimiter it
returns the scan end. -/
theorem readStringAux_notOk (r : List Char) (quote : Char) (tag : List Char) (e : Nat) :
    ∀ fuel i prev, (readStringAux r quote tag e fuel i prev).2 = false →
      (readStringAux r quote tag e fuel i prev).1 = e := by
  intro fuel
  induction fuel with
  | zero =>
    intro i prev _
    rfl
  | succ n ih =>
    intro i prev hfalse
    rw [readStringAux] at hfalse ⊢
    by_cases h0 : i < e
    · rw [if_pos h0] at hfalse ⊢
      by_cases h1 : quote = '\'' ∧ r.getD i NUL = '\\'
      · rw [if_pos h1] at hfalse ⊢
        exact ih _ _ hfalse
      · rw [if_neg h1] at hfalse ⊢
        by_cases h2 : quote = '\'' ∧ r.getD i NUL = '\'' ∧ grab r (i+1) e = '\''
        · rw [if_pos h2] at hfalse ⊢
          exact ih _ _ hfalse
        · rw [if_neg h2] at hfalse ⊢
          by_cases h3 : (quote = '\'' ∧ r.getD i NUL = '\'' ∧ prev ≠ '\'') ∨
              (quote = '"' ∧ r.getD i NUL = '"') ∨
              (quote = Char.ofNat 96 ∧ r.getD i NUL = Char.ofNat 96)
          · rw [if_pos h3] at hfalse
            exact absurd hfalse (by simp)
          · rw [if_neg h3] at hfalse ⊢
            by_cases h4 : quote = '$' ∧ r.getD i NUL = '$'
            · rw [if_pos h4] at hfalse ⊢
              by_cases h5 : ((readDollarAndTag r i e).2.2 : Prop) ∧
                  tag = (readDollarAndTag r i e).1
              · rw [if_pos h5] at hfalse
                exact absurd hfalse (by simp)
              · rw [if_neg h5] at hfalse ⊢
                exact ih _ _ hfalse
            · rw [if_neg h4] at hfalse ⊢
              exact ih _ _ hfalse
    · rw [if_neg h0]

/-- When the `readString` loop in dollar mode reports the literal
closed, it closed at a valid `$tag$` whose tag is the opening tag. -/
theorem readStringAux_dollar_ok (r : List Char) (tag : List Char) (e : Nat) :
    ∀ fuel i prev, (readStringAux r '$' tag e fuel i prev).2 = true →
      ∃ j, r.getD j NUL = '$' ∧
        readDollarAndTag r j e =
          (tag, (readStringAux r '$' tag e fuel i prev).1, true) := by
  intro fuel
  induction fuel with
  | zero =>
    intro i prev htrue
    exact absurd htrue (by simp [readStringAux])
  | succ n ih =>
    intro i prev htrue
    rw [readStringAux] at htrue ⊢
    by_cases h0 : i < e
    · rw [if_pos h0] at htrue ⊢
      by_cases h1 : ('$' : Char) = '\'' ∧ r.getD i NUL = '\\'
      · exact absurd h1.1 (by decide)
      · rw [if_neg h1] at htrue ⊢
        by_cases h2 : ('$' : Char) = '\'' ∧ r.getD i NUL = '\'' ∧ grab r (i+1) e = '\''
        · exact absurd h2.1 (by decide)
        · rw [if_neg h2] at htrue ⊢
          by_cases h3 : (('$' : Char) = '\'' ∧ r.getD i NUL = '\'' ∧ prev ≠ '\'') ∨
              (('$' : Char) = '"' ∧ r.getD i NUL = '"') ∨
              (('$' : Char) = Char.ofNat 96 ∧ r.getD i NUL = Char.ofNat 96)
          · rcases h3 with ⟨hc, -⟩ | ⟨hc, -⟩ | ⟨hc, -⟩ <;> exact absurd hc (by decide)
          · rw [if_neg h3] at htrue ⊢
            by_cases h4 : ('$' : Char) = '$' ∧ r.getD i NUL = '$'
            · rw [if_pos h4] at htrue ⊢
              by_cases h5 : ((readDollarAndTag r i e).2.2 : Prop) ∧
                  tag = (readDollarAndTag r i e).1
              · rw [if_pos h5] at htrue ⊢
                refine ⟨i, h4.2, ?_⟩
                have heta : readDollarAndTag r i e =
                    ((readDollarAndTag r i e).1, (readDollarAndTag r i e).2.1,
                      (readDollarAndTag r i e).2.2) := rfl
                rw [heta, ← h5.2, h5.1]
              · rw [if_neg h5] at htrue ⊢
                exact ih _ _ htrue
            · rw [if_neg h4] at htrue ⊢
              exact ih _ _ htrue
    · rw [if_neg h0] at htrue
      exact absurd htrue (by simp)

/-- Inside an unfinished quoted literal the parse loop consumes the
whole line without producing a command and without touching the state. -/
theorem parseLoop_unterminated (u : Unq) (fuel : Nat) (b : Stmt)
    (hq : b.quote ≠ NUL) (hne : 0 < b.rlen)
    (hnotok : (readString b.r 0 b.rlen b.quote b.quoteDollarTag).2 = false) :
    parseLoop u (fuel+2) b 0 = some ([], [], b, b.rlen + 1) := by
  have hpos : (readString b.r 0 b.rlen b.quote b.quoteDollarTag).1 = b.rlen :=
    readStringAux_notOk _ _ _ _ _ _ _ hnotok
  rw [parseLoop, if_pos hne, if_pos hq, hnotok, if_neg (by decide : ¬ (false = true)), hpos]
  rw [parseLoop, if_neg (by omega : ¬ (b.rlen + 1 < b.rlen))]

/-- Inside an unfinished quoted literal, a `Next` call consumes the
line, returns no command and no error, and preserves the quote state,
its dollar tag and the ready flag. -/
theorem NextF_unterminated (u : Unq) (fuel : Nat) (b : Stmt)
    (hfuel : 2 ≤ fuel) (hq : b.quote ≠ NUL) (hne : 0 < b.rlen)
    (hlen : b.rlen = b.r.length)
    (hnotok : (readString b.r 0 b.rlen b.quote b.quoteDollarTag).2 = false) :
    ∃ b2, Stmt.NextF fuel b u = some (("", "", none), b2) ∧
      b2.quote = b.quote ∧ b2.quoteDollarTag = b.quoteDollarTag ∧
      b2.ready = b.ready ∧ b2.rlen = 0 := by
  obtain ⟨k, rfl⟩ : ∃ k, fuel = k + 2 := ⟨fuel - 2, by omega⟩
  have hploop := parseLoop_unterminated u k b hq hne hnotok
  have hbody : ∃ res, Stmt.nextBody (k+2) b u = some res := by
    unfold Stmt.nextBody
    rw [hploop]
    exact ⟨_, rfl⟩
  obtain ⟨res, hres⟩ := hbody
  obtain ⟨c, p, b2', i2, hpl2, hc, hp, herr, hqf, hqtf, -, -, hrd, -, hrlen⟩ :=
    nextBody_fields (k+2) b u res hres
  rw [hploop] at hpl2
  simp only [Option.some.injEq, Prod.mk.injEq] at hpl2
  obtain ⟨hc0, hp0, hb0, hi0⟩ := hpl2
  subst hc0
  subst hp0
  subst hb0
  subst hi0
  have hnext : Stmt.NextF (k+2) b u = Stmt.nextBody (k+2) b u := by
    unfold Stmt.NextF
    rw [if_neg (by omega : ¬ b.rlen = 0)]
  have hres1 : res.1 = ("", "", none) := by
    have h1 : res.1 = (res.1.1, res.1.2.1, res.1.2.2) := rfl
    rw [h1, hc, hp, herr]
  refine ⟨res.2, ?_, hqf, hqtf, hrd, ?_⟩
  · rw [hnext, hres]
    have h2 : (("", "", none), res.2) = res := by
      rw [← hres1]
    exact congrArg some h2.symm
  · rw [hrlen]
    have h3 : min (b.rlen + 1) b.rlen = b.rlen := by omega
    rw [h3, List.length_drop]
    omega

set_option maxRecDepth 16384 in
/-- C1 (confirmed): while the assembler is inside a dollar-quoted
literal, (i) a line on which `readString` finds no closing delimiter is
scanned to its end, so no `;` or backslash sequence on it is acted on;
(ii) the scan reports the literal closed exactly at a valid `$tag$`
whose tag equals the opening tag (embedded `$...$` with another tag are
passed over); (iii) a `Next` call on such a line returns no command and
no error and preserves the quote, its tag and the ready flag; and (iv)
the source lines `select $$` / `\v(` / `$tag$$zz$$\g$$\g` yield the
single statement `select $$\n\v(\n$tag$$zz$$\g$$` and the command
records `|`, `|`, `\g|`. -/
theorem C1_dollar_literal :
    (∀ r tag i e, (readString r i e '$' tag).2 = false →
      (readString r i e '$' tag).1 = e) ∧
    (∀ r tag i e, (readString r i e '$' tag).2 = true →
      ∃ j, r.getD j NUL = '$' ∧
        readDollarAndTag r j e = (tag, (readString r i e '$' tag).1, true)) ∧
    (∀ u fuel b, 2 ≤ fuel → b.quote ≠ NUL → 0 < b.rlen → b.rlen = b.r.length →
      (readString b.r 0 b.rlen b.quote b.quoteDollarTag).2 = false →
      ∃ b2, Stmt.NextF fuel b u = some (("", "", none), b2) ∧
        b2.quote = b.quote ∧ b2.quoteDollarTag = b.quoteDollarTag ∧
        b2.ready = b.ready ∧ b2.rlen = 0) ∧
    runNext 10 (NewStmt (linesSrc ["select $$", "\\v(", "$tag$$zz$$\\g$$\\g"])) declineU =
      (["select $$\n\\v(\n$tag$$zz$$\\g$$"], ["|", "|", "\\g|"]) := by
  refine ⟨?_, ?_, ?_, ?_⟩
  · intro r tag i e h
    exact readStringAux_notOk r '$' tag e _ i NUL h
  · intro r tag i e h
    exact readStringAux_dollar_ok r tag e _ i NUL h
  · intro u fuel b h1 h2 h3 h4 h5
    exact NextF_unterminated u fuel b h1 h2 h3 h4 h5
  · rfl

/-- C1 witness: the closing-scan facts at concrete inputs: an
unclosed-line scan ends at the end, the literal `$x$a$x$` closes at its
leading `$x$`, and a `Next` on the pending line `a;b` inside an open
`$x$` literal returns no command with the quote state intact. -/
theorem C1_dollar_literal_witness :
    (readString ['a', 'b'] 0 2 '$' ['x']).1 = 2 ∧
    (∃ j, (['$', 'x', '$', 'a', '$', 'x', '$'] : List Char).getD j NUL = '$' ∧
      readDollarAndTag ['$', 'x', '$', 'a', '$', 'x', '$'] j 7 =
        (['x'], (readString ['$', 'x', '$', 'a', '$', 'x', '$'] 0 7 '$' ['x']).1, true)) ∧
    (∃ b2, Stmt.NextF 8
        { NewStmt [] with quote := '$', quoteDollarTag := ['x']
                        , r := ['a', ';', 'b'], rlen := 3 } declineU =
          some (("", "", none), b2) ∧
      b2.quote = '$' ∧ b2.quoteDollarTag = ['x'] ∧ b2.ready = false ∧ b2.rlen = 0) :=
  ⟨C1_dollar_literal.1 ['a', 'b'] ['x'] 0 2 (by decide),
   C1_dollar_literal.2.1 ['$', 'x', '$', 'a', '$', 'x', '$'] ['x'] 0 7 (by decide),
   C1_dollar_literal.2.2.1 declineU 8
     { NewStmt [] with quote := '$', quoteDollarTag := ['x']
                     , r := ['a', ';', 'b'], rlen := 3 }
     (by decide) (by decide) (by decide) (by decide) (by decide)⟩

/-! ### The prefix classifier: output shape and rescan -/

theorem isLetter_not_space {c : Char} (h : isLetter c = true) : IsSpaceOrControl c = false := by
  simp only [isLetter, Bool.or_eq_true, Bool.and_eq_true, decide_eq_true_eq] at h
  simp only [IsSpaceOrControl, isSpace, isControl, Bool.or_eq_false_iff, Bool.and_eq_false_iff,
    decide_eq_false_iff_not, decide_eq_true_eq]
  omega

theorem goodChar_isLetter {c : Char} (h : goodChar c = true) : isLetter c = true := by
  simp only [goodChar, Bool.and_eq_true] at h
  exact h.1

theorem goodChar_toUpper_self {c : Char} (h : goodChar c = true) : toUpper c = c := by
  simp only [goodChar, Bool.and_eq_true, beq_iff_eq] at h
  exact h.2

theorem isLetter_goodChar_toUpper {c : Char} (h : isLetter c = true) :
    goodChar (toUpper c) = true := by
  by_cases hlow : 0x61 ≤ c.toNat ∧ c.toNat ≤ 0x7A
  · obtain ⟨k, hk⟩ : ∃ k, c.toNat = 0x61 + k := ⟨c.toNat - 0x61, by omega⟩
    have hk25 : k ≤ 25 := by omega
    rw [toUpper, if_pos hlow, hk]
    interval_cases k <;> decide
  · rw [toUpper, if_neg hlow]
    simp only [goodChar, h, Bool.true_and, beq_iff_eq]
    rw [toUpper, if_neg hlow]

theorem map_toUpper_good {w : List Char} (h : ∀ c ∈ w, goodChar c = true) :
    w.map toUpper = w := by
  induction w with
  | nil => rfl
  | cons c cs ih =>
    simp only [List.map_cons, List.cons.injEq]
    exact ⟨goodChar_toUpper_self (h c (by simp)), ih (fun x hx => h x (by simp [hx]))⟩

theorem goodChar_ne_space {c : Char} (h : goodChar c = true) : c ≠ ' ' := by
  intro hc
  rw [hc] at h
  exact absurd h (by decide)

theorem getD_append_lt (l1 l2 : List Char) (j : Nat) (d : Char) (h : j < l1.length) :
    (l1 ++ l2).getD j d = l1.getD j d := by
  simp [List.getD_eq_getElem?_getD, List.getElem?_append_left h]

theorem getD_append_len (l1 : List Char) (c : Char) (l2 : List Char) (d : Char) :
    (l1 ++ c :: l2).getD l1.length d = c := by
  simp [List.getD_eq_getElem?_getD, List.getElem?_append_right (Nat.le_refl l1.length)]

theorem take_append_plus : ∀ (l1 l2 : List Char) (k : Nat),
    (l1 ++ l2).take (l1.length + k) = l1 ++ l2.take k
  | [], l2, k => by simp
  | a :: l1, l2, k => by
    simp only [List.cons_append, List.length_cons]
    rw [show l1.length + 1 + k = (l1.length + k) + 1 by omega, List.take_succ_cons]
    exact congrArg (List.cons a) (take_append_plus l1 l2 k)

theorem drop_append_plus : ∀ (l1 l2 : List Char) (k : Nat),
    (l1 ++ l2).drop (l1.length + k) = l2.drop k
  | [], l2, k => by simp
  | a :: l1, l2, k => by
    simp only [List.cons_append, List.length_cons]
    rw [show l1.length + 1 + k = (l1.length + k) + 1 by omega, List.drop_succ_cons]
    exact drop_append_plus l1 l2 k

theorem wordsJoinA_concat (ws : List (List Char)) (w : List Char) :
    wordsJoinA (ws ++ [w]) = wordsJoinA ws ++ (w ++ [' ']) := by
  simp [wordsJoinA]

theorem wordsJoinA_cons (ws : List (List Char)) (w : List Char) :
    wordsJoinA (w :: ws) = (w ++ [' ']) ++ wordsJoinA ws := by
  simp [wordsJoinA]

theorem wordsFlat_concat : ∀ (ws : List (List Char)) (w : List Char),
    wordsFlat (ws ++ [w]) = wordsJoinA ws ++ w
  | [], w => by simp [wordsFlat, wordsJoinA]
  | w0 :: ws, w => by
    cases ws with
    | nil => simp [wordsFlat, wordsJoinA]
    | cons x t =>
      have ih := wordsFlat_concat (x :: t) w
      show wordsFlat (w0 :: x :: (t ++ [w])) = wordsJoinA (w0 :: x :: t) ++ w
      rw [show wordsFlat (w0 :: x :: (t ++ [w])) = w0 ++ ' ' :: wordsFlat (x :: (t ++ [w]))
        from rfl]
      rw [show (x :: (t ++ [w]) : List (List Char)) = (x :: t) ++ [w] from rfl, ih]
      simp [wordsJoinA_cons]

theorem wordsJoinA_getLastD (ws : List (List Char)) (w : List Char) (d : Char) :
    (wordsJoinA (ws ++ [w])).getLastD d = ' ' := by
  rw [wordsJoinA_concat, show wordsJoinA ws ++ (w ++ [' ']) = (wordsJoinA ws ++ w) ++ [' ']
    by simp, List.getLastD_concat]

theorem wordsJoinA_dropLast (ws : List (List Char)) (w : List Char) :
    (wordsJoinA (ws ++ [w])).dropLast = wordsJoinA ws ++ w := by
  rw [wordsJoinA_concat, show wordsJoinA ws ++ (w ++ [' ']) = (wordsJoinA ws ++ w) ++ [' ']
    by simp, List.dropLast_concat]

theorem findNonSpaceAux_ge (r : List Char) (e : Nat) :
    ∀ fuel i, i ≤ (findNonSpaceAux r e fuel i).1 := by
  intro fuel
  induction fuel with
  | zero =>
    intro i
    exact Nat.le_refl i
  | succ n ih =>
    intro i
    rw [findNonSpaceAux]
    by_cases h0 : i < e
    · rw [if_pos h0]
      by_cases h1 : IsSpaceOrControl (r.getD i NUL) = true
      · rw [if_pos h1]
        exact Nat.le_trans (Nat.le_succ i) (ih (i+1))
      · rw [if_neg h1]
    · rw [if_neg h0]

theorem findNonSpace_fix (r : List Char) (i e : Nat) (h : i < e)
    (hs : IsSpaceOrControl (r.getD i NUL) = false) : (findNonSpace r i e).1 = i := by
  obtain ⟨k, hk⟩ : ∃ k, e + 1 - i = k + 1 := ⟨e - i, by omega⟩
  rw [findNonSpace, hk, findNonSpaceAux, if_pos h, if_neg (by rw [hs]; exact Bool.false_ne_true)]

theorem findNonSpace_gt (r : List Char) (i e : Nat) (h : i < e)
    (hs : IsSpaceOrControl (r.getD i NUL) = true) : i < (findNonSpace r i e).1 := by
  obtain ⟨k, hk⟩ : ∃ k, e + 1 - i = k + 1 := ⟨e - i, by omega⟩
  rw [findNonSpace, hk, findNonSpaceAux, if_pos h, if_pos hs]
  exact Nat.lt_of_lt_of_le (Nat.lt_succ_self i) (findNonSpaceAux_ge r e k (i+1))

theorem findRuneAux_ge (r : List Char) (e : Nat) (c : Char) :
    ∀ fuel i, i ≤ (findRuneAux r e c fuel i).1 := by
  intro fuel
  induction fuel with
  | zero =>
    intro i
    exact Nat.le_refl i
  | succ n ih =>
    intro i
    rw [findRuneAux]
    by_cases h0 : i < e
    · rw [if_pos h0]
      by_cases h1 : r.getD i NUL = c
      · rw [if_pos h1]
      · rw [if_neg h1]
        exact Nat.le_trans (Nat.le_succ i) (ih (i+1))
    · rw [if_neg h0]

theorem findRune_ge (r : List Char) (i e : Nat) (c : Char) : i ≤ (findRune r i e c).1 :=
  findRuneAux_ge r e c (e + 1 - i) i

theorem fpBlockAux_some (r : List Char) (e : Nat) :
    ∀ fuel j re, fpBlockAux r e fuel j = some re →
      ∃ p, j ≤ p ∧ re = (r.drop (p+2), e - (p+2)) := by
  intro fuel
  induction fuel with
  | zero =>
    intro j re h
    exact absurd h (by simp [fpBlockAux])
  | succ n ih =>
    intro j re h
    rw [fpBlockAux] at h
    by_cases h0 : j < e
    · rw [if_pos h0] at h
      by_cases h1 : grab r j e = '*' ∧ grab r (j+1) e = '/'
      · rw [if_pos h1] at h
        simp only [Option.some.injEq] at h
        exact ⟨j, Nat.le_refl j, h.symm⟩
      · rw [if_neg h1] at h
        obtain ⟨p, hp, hre⟩ := ih (j+1) re h
        exact ⟨p, by omega, hre⟩
    · rw [if_neg h0] at h
      exact absurd h (by simp)

theorem findNonSpace_ge (r : List Char) (i e : Nat) : i ≤ (findNonSpace r i e).1 :=
  findNonSpaceAux_ge r e (e + 1 - i) i

theorem fpLoop_succ (n : Nat) :
    ∀ fuel r e i s words, 2*e + 1 ≤ fuel + i →
      fpLoop n (fuel+1) r e i s words = fpLoop n fuel r e i s words := by
  intro fuel
  induction fuel with
  | zero =>
    intro r e i s words h
    have hie : ¬ i < e := by omega
    rw [fpLoop, fpLoop, if_neg hie]
  | succ m ih =>
    intro r e i s words h
    rw [fpLoop]
    conv_rhs => rw [fpLoop]
    by_cases hie : i < e
    · rw [if_pos hie, if_pos hie]
      by_cases c1 : i ≠ (findNonSpace r i e).1
      · rw [if_pos c1, if_pos c1]
        have hj := findNonSpace_ge r i e
        exact ih _ _ _ _ _ (by omega)
      · rw [if_neg c1, if_neg c1]
        by_cases c2 : grab r i e = NUL
        · rw [if_pos c2, if_pos c2]
          exact ih _ _ _ _ _ (by omega)
        · rw [if_neg c2, if_neg c2]
          by_cases c3 : grab r i e = ';'
          · rw [if_pos c3, if_pos c3]
          · rw [if_neg c3, if_neg c3]
            by_cases c4 : (grab r i e = '-' ∧ grab r (i+1) e = '-') ∨
                (grab r i e = '/' ∧ grab r (i+1) e = '/') ∨ grab r i e = '#'
            · rw [if_pos c4, if_pos c4]
              by_cases c4b : (findRune r i e '\n').1 ≥ e
              · rw [if_pos c4b, if_pos c4b]
              · rw [if_neg c4b, if_neg c4b]
                have hp := findRune_ge r i e '\n'
                exact ih _ _ _ _ _ (by omega)
            · rw [if_neg c4, if_neg c4]
              by_cases c5 : grab r i e = '/' ∧ grab r (i+1) e = '*'
              · rw [if_pos c5, if_pos c5]
                cases hbl : fpBlockLoop r (i+2) e with
                | none => simp only [hbl]
                | some re =>
                  simp only [hbl]
                  rw [fpBlockLoop] at hbl
                  obtain ⟨p, hp, hre⟩ := fpBlockAux_some r e _ _ re hbl
                  subst hre
                  exact ih _ _ _ _ _ (by omega)
              · rw [if_neg c5, if_neg c5]
                by_cases c6 : words = n ∨ (!isLetter (grab r i e)) = true
                · rw [if_pos c6, if_pos c6]
                · rw [if_neg c6, if_neg c6]
                  by_cases c7 : grab r (i+1) e ≠ '/' ∧ (!isLetter (grab r (i+1) e)) = true
                  · rw [if_pos c7, if_pos c7]
                    by_cases c7a : grab r (i+1) e = NUL
                    · rw [if_pos c7a, if_pos c7a]
                      exact ih _ _ _ _ _ (by omega)
                    · rw [if_neg c7a, if_neg c7a]
                      by_cases c7b : grab r (i+1) e = ';'
                      · rw [if_pos c7b, if_pos c7b]
                      · rw [if_neg c7b, if_neg c7b]
                        exact ih _ _ _ _ _ (by omega)
                  · rw [if_neg c7, if_neg c7]
                    exact ih _ _ _ _ _ (by omega)
    · rw [if_neg hie, if_neg hie]

theorem fpLoop_fuel_add (n : Nat) :
    ∀ d fuel r e i s words, 2*e + 1 ≤ fuel + i →
      fpLoop n (fuel + d) r e i s words = fpLoop n fuel r e i s words := by
  intro d
  induction d with
  | zero =>
    intro fuel r e i s words _
    rfl
  | succ d ih =>
    intro fuel r e i s words h
    rw [show fuel + (d+1) = (fuel + d) + 1 by omega]
    rw [fpLoop_succ n (fuel + d) r e i s words (by omega)]
    exact ih fuel r e i s words h

theorem fpLoop_fuel (n f1 f2 : Nat) (r : List Char) (e i : Nat) (s : List Char) (words : Nat)
    (h1 : 2*e + 1 ≤ f1 + i) (h2 : 2*e + 1 ≤ f2 + i) :
    fpLoop n f1 r e i s words = fpLoop n f2 r e i s words := by
  rcases Nat.le_total f1 f2 with hle | hle
  · obtain ⟨d, rfl⟩ : ∃ d, f2 = f1 + d := ⟨f2 - f1, by omega⟩
    exact (fpLoop_fuel_add n d f1 r e i s words h1).symm
  · obtain ⟨d, rfl⟩ : ∃ d, f1 = f2 + d := ⟨f1 - f2, by omega⟩
    exact fpLoop_fuel_add n d f2 r e i s words h2

theorem Shape_mono {s : List Char} {k k' : Nat} (h : Shape s k) (hk : k ≤ k') : Shape s k' := by
  rcases h with ⟨ws, h1, h2, h3⟩ | ⟨ws, w, h1, h2, h3, h4⟩
  · exact Or.inl ⟨ws, h1, by omega, h3⟩
  · exact Or.inr ⟨ws, w, h1, h2, by omega, h4⟩

theorem Shape_nil : Shape [] 0 :=
  Or.inl ⟨[], by simp, by simp, rfl⟩

theorem Shape_capture_sp {s : List Char} {k : Nat} {w : List Char}
    (h : Shape s k) (hw : goodWord w) : Shape (s ++ w ++ [' ']) (k+1) := by
  rcases h with ⟨ws, h1, h2, h3⟩ | ⟨ws, wl, h1, h2, h3, h4⟩
  · refine Or.inl ⟨ws ++ [w], ?_, by simp; omega, ?_⟩
    · intro x hx
      rcases List.mem_append.mp hx with hx | hx
      · exact h1 x hx
      · rw [List.mem_singleton.mp hx]
        exact hw
    · rw [h3, wordsJoinA_concat]
      simp
  · refine Or.inl ⟨ws ++ [wl ++ w], ?_, by simp; omega, ?_⟩
    · intro x hx
      rcases List.mem_append.mp hx with hx | hx
      · exact h1 x hx
      · rw [List.mem_singleton.mp hx]
        exact ⟨by simp [h2.1], by
          intro c hc
          rcases List.mem_append.mp hc with hc | hc
          · exact h2.2 c hc
          · exact hw.2 c hc⟩
    · rw [h4, wordsJoinA_concat]
      simp

theorem Shape_capture_nosp {s : List Char} {k : Nat} {w : List Char}
    (h : Shape s k) (hw : goodWord w) : Shape (s ++ w) (k+1) := by
  rcases h with ⟨ws, h1, h2, h3⟩ | ⟨ws, wl, h1, h2, h3, h4⟩
  · exact Or.inr ⟨ws, w, h1, hw, by omega, by rw [h3]⟩
  · refine Or.inr ⟨ws, wl ++ w, h1, ?_, by omega, by rw [h4]; simp⟩
    exact ⟨by simp [h2.1], by
      intro c hc
      rcases List.mem_append.mp hc with hc | hc
      · exact h2.2 c hc
      · exact hw.2 c hc⟩

theorem Shape_fpSpace {s : List Char} {k : Nat} (r : List Char) (e : Nat)
    (h : Shape s k) : Shape (fpSpace s r e) k := by
  rw [fpSpace]
  by_cases hc : 0 < e ∧ s ≠ [] ∧ IsSpaceOrControl (r.getD 0 NUL) = true ∧
      (!IsSpaceOrControl (s.getLastD NUL)) = true
  · rw [if_pos hc]
    rcases h with ⟨ws, h1, h2, h3⟩ | ⟨ws, w, h1, h2, h3, h4⟩
    · exfalso
      rcases List.eq_nil_or_concat ws with hws | ⟨ws0, w0, hws⟩
      · rw [hws] at h3
        exact hc.2.1 (by rw [h3]; rfl)
      · rw [List.concat_eq_append] at hws
        have hlast : s.getLastD NUL = ' ' := by
          rw [h3, hws]
          exact wordsJoinA_getLastD ws0 w0 NUL
        have hsp := hc.2.2.2
        rw [hlast] at hsp
        exact absurd hsp (by decide)
    · refine Or.inl ⟨ws ++ [w], ?_, by simp; omega, ?_⟩
      · intro x hx
        rcases List.mem_append.mp hx with hx | hx
        · exact h1 x hx
        · rw [List.mem_singleton.mp hx]
          exact h2
      · rw [h4, wordsJoinA_concat]
        simp
  · rw [if_neg hc]
    exact h

theorem goodWord_upperTake {r : List Char} {i : Nat} (hi : i ≠ 0) (hle : i ≤ r.length)
    (hlet : ∀ j, j < i → isLetter (r.getD j NUL) = true) :
    goodWord ((r.take i).map toUpper) := by
  constructor
  · have hlen : ((r.take i).map toUpper).length = i := by
      simp [List.length_take]
      omega
    intro hnil
    rw [hnil] at hlen
    simp at hlen
    omega
  · intro c hc
    rw [List.mem_map] at hc
    obtain ⟨c0, hc0, rfl⟩ := hc
    obtain ⟨j, hsome⟩ := List.mem_iff_getElem?.mp hc0
    have hjlen : j < (r.take i).length := by
      by_contra hge
      rw [List.getElem?_eq_none (by omega)] at hsome
      exact absurd hsome (by simp)
    have hji : j < i := by
      simp [List.length_take] at hjlen
      omega
    have hsome2 : r[j]? = some c0 := by
      rw [← List.getElem?_take_of_lt hji]
      exact hsome
    have hc0d : r.getD j NUL = c0 := by
      simp [List.getD_eq_getElem?_getD, hsome2]
    rw [← hc0d]
    exact isLetter_goodChar_toUpper (hlet j hji)

theorem appendUpperRunes_nil (s w : List Char) :
    appendUpperRunes s w [] = s ++ w.map toUpper := by
  simp [appendUpperRunes]

/-- The accumulator of the prefix-classifier loop keeps the shape of at
most `n` good words (space-terminated, possibly one trailing
unterminated word). -/
theorem fpLoop_shape (n : Nat) :
    ∀ fuel r e i s words,
      e ≤ r.length →
      (∀ j, j < i → isLetter (r.getD j NUL) = true) →
      (i ≠ 0 → words < n ∨ IsSpaceOrControl (grab r i e) = true) →
      words ≤ n →
      Shape s words →
      Shape (fpLoop n fuel r e i s words) n := by
  intro fuel
  induction fuel with
  | zero =>
    intro r e i s words _ _ _ hwn hs
    exact Shape_mono hs hwn
  | succ m ih =>
    intro r e i s words hre hlets hinv hwn hs
    rw [fpLoop]
    by_cases hie : i < e
    · rw [if_pos hie]
      by_cases c1 : i ≠ (findNonSpace r i e).1
      · rw [if_pos c1]
        refine ih _ _ _ _ _ ?_ ?_ ?_ hwn hs
        · simp only [List.length_drop]
          omega
        · intro j hj
          exact absurd hj (by omega)
        · intro h0
          exact absurd rfl h0
      · rw [if_neg c1]
        rw [not_ne_iff] at c1
        by_cases c2 : grab r i e = NUL
        · exfalso
          have hgd : r.getD i NUL = NUL := by
            rw [grab_eq_getD hie] at c2
            exact c2
          have := findNonSpace_gt r i e hie (by rw [hgd]; decide)
          omega
        · rw [if_neg c2]
          by_cases c3 : grab r i e = ';'
          · rw [if_pos c3]
            exact Shape_mono hs hwn
          · rw [if_neg c3]
            by_cases c4 : (grab r i e = '-' ∧ grab r (i+1) e = '-') ∨
                (grab r i e = '/' ∧ grab r (i+1) e = '/') ∨ grab r i e = '#'
            · rw [if_pos c4]
              have hwlt : i ≠ 0 → words < n := by
                intro hi0
                rcases hinv hi0 with h | h
                · exact h
                · exfalso
                  rcases c4 with ⟨h41, -⟩ | ⟨h41, -⟩ | h41 <;>
                    rw [h41] at h <;> exact absurd h (by decide)
              by_cases c4b : (findRune r i e '\n').1 ≥ e
              · rw [if_pos c4b]
                by_cases hi0 : i = 0
                · rw [fpCapture, if_neg (by omega)]
                  exact Shape_mono hs hwn
                · rw [fpCapture, if_pos hi0]
                  exact Shape_mono
                    (Shape_capture_sp hs (goodWord_upperTake hi0 (by omega) hlets))
                    (by have := hwlt hi0; omega)
              · rw [if_neg c4b]
                refine ih _ _ _ _ _ ?_ ?_ ?_ ?_ ?_
                · simp only [List.length_drop]
                  omega
                · intro j hj
                  exact absurd hj (by omega)
                · intro h0
                  exact absurd rfl h0
                · by_cases hi0 : i = 0
                  · rw [fpWords, if_neg (by omega)]
                    exact hwn
                  · rw [fpWords, if_pos hi0]
                    have := hwlt hi0
                    omega
                · by_cases hi0 : i = 0
                  · rw [fpCapture, if_neg (by omega), fpWords, if_neg (by omega)]
                    exact hs
                  · rw [fpCapture, if_pos hi0, fpWords, if_pos hi0]
                    exact Shape_capture_sp hs (goodWord_upperTake hi0 (by omega) hlets)
            · rw [if_neg c4]
              by_cases c5 : grab r i e = '/' ∧ grab r (i+1) e = '*'
              · rw [if_pos c5]
                have hwlt : i ≠ 0 → words < n := by
                  intro hi0
                  rcases hinv hi0 with h | h
                  · exact h
                  · exfalso
                    rw [c5.1] at h
                    exact absurd h (by decide)
                cases hbl : fpBlockLoop r (i+2) e with
                | none =>
                  simp only [hbl]
                  by_cases hi0 : i = 0
                  · rw [fpCapture, if_neg (by omega)]
                    exact Shape_mono (Shape_fpSpace r e hs) hwn
                  · rw [fpCapture, if_pos hi0, appendUpperRunes_nil]
                    have hcap := Shape_capture_nosp hs
                      (goodWord_upperTake hi0 (by omega) hlets)
                    exact Shape_mono (Shape_fpSpace r e hcap) (by have := hwlt hi0; omega)
                | some re =>
                  simp only [hbl]
                  rw [fpBlockLoop] at hbl
                  obtain ⟨p, hp, hre2⟩ := fpBlockAux_some r e _ _ re hbl
                  subst hre2
                  refine ih _ _ _ _ _ ?_ ?_ ?_ ?_ ?_
                  · show e - (p + 2) ≤ (List.drop (p + 2) r).length
                    simp only [List.length_drop]
                    omega
                  · intro j hj
                    exact absurd hj (by omega)
                  · intro h0
                    exact absurd rfl h0
                  · by_cases hi0 : i = 0
                    · rw [fpWords, if_neg (by omega)]
                      exact hwn
                    · rw [fpWords, if_pos hi0]
                      have := hwlt hi0
                      omega
                  · by_cases hi0 : i = 0
                    · rw [fpCapture, if_neg (by omega), fpWords, if_neg (by omega)]
                      exact Shape_fpSpace _ _ hs
                    · rw [fpCapture, if_pos hi0, fpWords, if_pos hi0, appendUpperRunes_nil]
                      exact Shape_fpSpace _ _
                        (Shape_capture_nosp hs (goodWord_upperTake hi0 (by omega) hlets))
              · rw [if_neg c5]
                by_cases c6 : words = n ∨ (!isLetter (grab r i e)) = true
                · rw [if_pos c6]
                  exact Shape_mono hs hwn
                · rw [if_neg c6]
                  have h6 := not_or.mp c6
                  have hL : isLetter (grab r i e) = true := by
                    by_contra hF
                    apply h6.2
                    rw [Bool.not_eq_true] at hF
                    rw [hF]
                    rfl
                  have hLd : isLetter (r.getD i NUL) = true := by
                    rw [grab_eq_getD hie] at hL
                    exact hL
                  have hwlt : words < n := Nat.lt_of_le_of_ne hwn h6.1
                  have hlets1 : ∀ j, j < i + 1 → isLetter (r.getD j NUL) = true := by
                    intro j hj
                    rcases Nat.lt_or_ge j i with h | h
                    · exact hlets j h
                    · have hji : j = i := by omega
                      rw [hji]
                      exact hLd
                  by_cases c7 : grab r (i+1) e ≠ '/' ∧ (!isLetter (grab r (i+1) e)) = true
                  · rw [if_pos c7]
                    by_cases c7a : grab r (i+1) e = NUL
                    · rw [if_pos c7a]
                      refine ih _ _ _ _ _ hre hlets1 ?_ ?_ ?_
                      · intro _
                        right
                        rw [c7a]
                        decide
                      · omega
                      · exact Shape_capture_sp hs
                          (goodWord_upperTake (by omega) (by omega) hlets1)
                    · rw [if_neg c7a]
                      by_cases c7b : grab r (i+1) e = ';'
                      · rw [if_pos c7b]
                        exact Shape_mono
                          (Shape_capture_sp hs
                            (goodWord_upperTake (by omega) (by omega) hlets1))
                          (by omega)
                      · rw [if_neg c7b]
                        refine ih _ _ _ _ _ ?_ ?_ ?_ ?_ ?_
                        · simp only [List.length_drop]
                          omega
                        · intro j hj
                          exact absurd hj (by omega)
                        · intro h0
                          exact absurd rfl h0
                        · omega
                        · exact Shape_capture_sp hs
                            (goodWord_upperTake (by omega) (by omega) hlets1)
                  · rw [if_neg c7]
                    refine ih _ _ _ _ _ hre hlets1 ?_ hwn hs
                    intro _
                    left
                    exact hwlt
    · rw [if_neg hie]
      exact Shape_mono hs hwn

theorem isLetter_ne {c : Char} (h : isLetter c = true) :
    c ≠ NUL ∧ c ≠ ';' ∧ c ≠ '-' ∧ c ≠ '/' ∧ c ≠ '#' ∧ c ≠ '*' ∧ c ≠ ' ' := by
  refine ⟨?_, ?_, ?_, ?_, ?_, ?_, ?_⟩ <;>
    (intro hc; rw [hc] at h; exact absurd h (by decide))

/-- Scanning a good word at the head position: the classifier captures
it (upper-cased, with a space) and moves past the separator. -/
theorem fpLoop_word (n : Nat) (rest : List Char)
    (hrest : rest = [] ∨ ∃ r2, rest = ' ' :: r2) :
    ∀ suf pre s words fuel,
      (∀ c ∈ pre, goodChar c = true) → (∀ c ∈ suf, goodChar c = true) → suf ≠ [] →
      words < n →
      2*(pre ++ suf ++ rest).length + 1 ≤ fuel + pre.length →
      fpLoop n fuel (pre ++ suf ++ rest) (pre ++ suf ++ rest).length pre.length s words =
        (if rest.length = 0 then appendUpperRunes s (pre ++ suf) [' ']
         else fpLoop n (2*rest.length - 1) (rest.drop 1) (rest.length - 1) 0
           (appendUpperRunes s (pre ++ suf) [' ']) (words + 1)) := by
  intro suf
  induction suf with
  | nil =>
    intro pre s words fuel _ _ hne _ _
    exact absurd rfl hne
  | cons c suf' ih =>
    intro pre s words fuel hpre hsuf hne hwlt hfuel
    have hgood : goodChar c = true := hsuf c (by simp)
    have hlet : isLetter c = true := goodChar_isLetter hgood
    have hnsp : IsSpaceOrControl c = false := isLetter_not_space hlet
    obtain ⟨hn1, hn2, hn3, hn4, hn5, hn6, hn7⟩ := isLetter_ne hlet
    have hR : pre ++ (c :: suf') ++ rest = pre ++ c :: (suf' ++ rest) := by simp
    rw [hR] at hfuel ⊢
    have he : (pre ++ c :: (suf' ++ rest)).length =
        pre.length + 1 + suf'.length + rest.length := by
      simp only [List.length_append, List.length_cons]
      omega
    have hie : pre.length < (pre ++ c :: (suf' ++ rest)).length := by omega
    have hgc : (pre ++ c :: (suf' ++ rest)).getD pre.length NUL = c :=
      getD_append_len pre c (suf' ++ rest) NUL
    have hgrab : grab (pre ++ c :: (suf' ++ rest)) pre.length
        (pre ++ c :: (suf' ++ rest)).length = c := by
      rw [grab_eq_getD hie, hgc]
    obtain ⟨m, rfl⟩ : ∃ m, fuel = m + 1 := ⟨fuel - 1, by omega⟩
    rw [fpLoop, if_pos hie]
    have hfix : (findNonSpace (pre ++ c :: (suf' ++ rest)) pre.length
        (pre ++ c :: (suf' ++ rest)).length).1 = pre.length :=
      findNonSpace_fix _ _ _ hie (by rw [hgc]; exact hnsp)
    rw [if_neg (by rw [hfix]; exact fun hx => hx rfl)]
    rw [hgrab]
    rw [if_neg hn1, if_neg hn2]
    rw [if_neg (by
      rintro (⟨hx, -⟩ | ⟨hx, -⟩ | hx) <;>
        first | exact hn3 hx | exact hn4 hx | exact hn5 hx)]
    rw [if_neg (by rintro ⟨hx, -⟩; exact hn4 hx)]
    rw [if_neg (by
      rintro (hx | hx)
      · omega
      · rw [hlet] at hx
        exact absurd hx (by decide))]
    cases suf' with
    | nil =>
      rcases hrest with hrE | ⟨r2, hrE⟩ <;> subst hrE
      · simp only [List.nil_append, List.append_nil] at *
        have hnext : grab (pre ++ [c]) (pre.length + 1) (pre ++ [c]).length = NUL :=
          grab_out (by simp only [List.length_append, List.length_cons, List.length_nil]; omega)
        rw [hnext]
        rw [if_pos (show NUL ≠ '/' ∧ (!isLetter NUL) = true from ⟨by decide, by decide⟩)]
        rw [if_pos (show NUL = NUL from rfl)]
        have hstop : ∀ s2, fpLoop n m (pre ++ [c]) (pre ++ [c]).length (pre.length + 1)
            s2 (words + 1) = s2 := by
          intro s2
          cases m with
          | zero => rfl
          | succ m2 =>
            rw [fpLoop, if_neg (by simp only [List.length_append, List.length_cons, List.length_nil]; omega)]
        rw [hstop]
        rw [if_pos (show ([] : List Char).length = 0 from rfl)]
        rw [show pre.length + 1 = pre.length + 1 from rfl,
          show (pre ++ [c]).take (pre.length + 1) = pre ++ [c].take 1 from
            take_append_plus pre [c] 1]
        simp
      · simp only [List.nil_append] at *
        have hnext : grab (pre ++ c :: ' ' :: r2) (pre.length + 1)
            (pre ++ c :: ' ' :: r2).length = ' ' := by
          rw [grab_eq_getD (by simp only [List.length_append, List.length_cons, List.length_nil]; omega)]
          rw [show pre ++ c :: ' ' :: r2 = (pre ++ [c]) ++ ' ' :: r2 from by simp]
          rw [show pre.length + 1 = (pre ++ [c]).length from by simp]
          exact getD_append_len _ _ _ _
        rw [hnext]
        rw [if_pos (show (' ' : Char) ≠ '/' ∧ (!isLetter ' ') = true from
          ⟨by decide, by decide⟩)]
        rw [if_neg (show ¬ (' ' : Char) = NUL from by decide)]
        rw [if_neg (show ¬ (' ' : Char) = ';' from by decide)]
        have hdrop : (pre ++ c :: ' ' :: r2).drop (pre.length + 2) = r2 := by
          rw [show pre ++ c :: ' ' :: r2 = (pre ++ [c]) ++ ' ' :: r2 from by simp]
          rw [show pre.length + 2 = (pre ++ [c]).length + 1 from by simp]
          exact drop_append_plus _ _ _
        have htake : (pre ++ c :: ' ' :: r2).take (pre.length + 1) = pre ++ [c] := by
          rw [show pre ++ c :: ' ' :: r2 = (pre ++ [c]) ++ ' ' :: r2 from by simp]
          rw [show pre.length + 1 = (pre ++ [c]).length + 0 from by simp]
          rw [take_append_plus]
          simp
        rw [hdrop, htake]
        rw [show (pre ++ c :: ' ' :: r2).length - (pre.length + 2) = r2.length from by
          simp only [List.length_append, List.length_cons]
          omega]
        rw [fpLoop_fuel n m (2*r2.length + 1) r2 r2.length 0 _ (words + 1)
          (by simp only [List.length_append, List.length_cons] at hfuel; omega) (by omega)]
        rw [if_neg (show ¬ (' ' :: r2 : List Char).length = 0 from by simp)]
        rw [show (' ' :: r2 : List Char).length = r2.length + 1 from rfl]
        rw [show 2 * (r2.length + 1) - 1 = 2 * r2.length + 1 from by omega]
        rw [show r2.length + 1 - 1 = r2.length from by omega]
        rw [show List.drop 1 (' ' :: r2) = r2 from rfl]
    | cons c2 suf'' =>
      have hgood2 : goodChar c2 = true := hsuf c2 (by simp)
      have hlet2 : isLetter c2 = true := goodChar_isLetter hgood2
      have hnext : grab (pre ++ c :: (c2 :: suf'' ++ rest)) (pre.length + 1)
          (pre ++ c :: (c2 :: suf'' ++ rest)).length = c2 := by
        rw [grab_eq_getD (by simp only [List.length_append, List.length_cons, List.length_nil]; omega)]
        rw [show pre ++ c :: (c2 :: suf'' ++ rest) = (pre ++ [c]) ++ c2 :: (suf'' ++ rest)
          from by simp]
        rw [show pre.length + 1 = (pre ++ [c]).length from by simp]
        exact getD_append_len _ _ _ _
      rw [hnext]
      rw [if_neg (by
        rintro ⟨-, hx⟩
        rw [hlet2] at hx
        exact absurd hx (by decide))]
      have hih := ih (pre ++ [c]) s words m
        (by
          intro x hx
          rcases List.mem_append.mp hx with hx | hx
          · exact hpre x hx
          · rw [List.mem_singleton.mp hx]
            exact hgood)
        (by
          intro x hx
          exact hsuf x (by simp [hx]))
        (by simp)
        hwlt
        (by
          simp only [List.length_append, List.length_cons, List.length_nil] at hfuel ⊢
          omega)
      simp only [List.append_assoc, List.cons_append, List.nil_append,
        List.length_append, List.length_cons, List.length_nil] at hih ⊢
      rw [show pre.length + 1 = pre.length + 1 from rfl] at hih
      exact hih

/-- Rescanning a flat list of good words reproduces them (upper-cased
form unchanged), space-terminated. -/
theorem fpLoop_rescan (n : Nat) :
    ∀ ws s words, (∀ w ∈ ws, goodWord w) → ws ≠ [] → words + ws.length ≤ n →
      fpLoop n (2 * (wordsFlat ws).length + 1) (wordsFlat ws) (wordsFlat ws).length 0
          s words =
        s ++ wordsJoinA ws := by
  intro ws
  induction ws with
  | nil =>
    intro s words _ hne _
    exact absurd rfl hne
  | cons w ws' ih =>
    intro s words hgood hne hcount
    have hw : goodWord w := hgood w (by simp)
    cases ws' with
    | nil =>
      have happ := fpLoop_word n [] (Or.inl rfl) w [] s words (2 * w.length + 1)
        (by simp) hw.2 hw.1
        (by simp only [List.length_cons, List.length_nil] at hcount; omega)
        (by simp only [List.nil_append, List.append_nil, List.length_nil]; omega)
      rw [if_pos (show ([] : List Char).length = 0 from rfl)] at happ
      simp only [List.nil_append, List.append_nil, List.length_nil] at happ
      rw [show wordsFlat [w] = w from rfl]
      rw [happ, appendUpperRunes, map_toUpper_good hw.2]
      simp [wordsJoinA]
    | cons w2 ws'' =>
      have happ := fpLoop_word n (' ' :: wordsFlat (w2 :: ws''))
        (Or.inr ⟨wordsFlat (w2 :: ws''), rfl⟩) w [] s words
        (2 * (w ++ ' ' :: wordsFlat (w2 :: ws'')).length + 1)
        (by simp) hw.2 hw.1
        (by simp only [List.length_cons, List.length_nil] at hcount; omega)
        (by simp only [List.nil_append, List.length_nil]; omega)
      rw [if_neg (by simp)] at happ
      rw [show List.drop 1 (' ' :: wordsFlat (w2 :: ws'')) = wordsFlat (w2 :: ws'')
        from rfl] at happ
      rw [show (' ' :: wordsFlat (w2 :: ws'') : List Char).length =
        (wordsFlat (w2 :: ws'')).length + 1 from rfl] at happ
      rw [show 2 * ((wordsFlat (w2 :: ws'')).length + 1) - 1 =
        2 * (wordsFlat (w2 :: ws'')).length + 1 from by omega] at happ
      rw [show (wordsFlat (w2 :: ws'')).length + 1 - 1 = (wordsFlat (w2 :: ws'')).length
        from by omega] at happ
      simp only [List.nil_append, List.length_nil] at happ
      rw [show wordsFlat (w :: w2 :: ws'') = w ++ ' ' :: wordsFlat (w2 :: ws'') from rfl]
      rw [happ]
      rw [ih (appendUpperRunes s w [' ']) (words + 1)
        (by intro x hx; exact hgood x (by simp [hx])) (by simp)
        (by simp only [List.length_cons] at hcount ⊢; omega)]
      rw [appendUpperRunes, map_toUpper_good hw.2]
      simp [wordsJoinA_cons]

/-- The trimmed classifier output: empty, or good words joined by
single spaces. -/
theorem findPfx_form (r : List Char) (n : Nat) :
    (findPfx r n).data = [] ∨
    ∃ ws w, (∀ x ∈ ws, goodWord x) ∧ goodWord w ∧ ws.length + 1 ≤ n ∧
      (findPfx r n).data = wordsJoinA ws ++ w := by
  have hdata : (findPfx r n).data =
      (if fpLoop n (fpFuel r) r r.length 0 [] 0 ≠ [] ∧
          (fpLoop n (fpFuel r) r r.length 0 [] 0).getLastD NUL = ' '
        then (fpLoop n (fpFuel r) r r.length 0 [] 0).dropLast
        else fpLoop n (fpFuel r) r r.length 0 [] 0) := rfl
  have hshape := fpLoop_shape n (fpFuel r) r r.length 0 [] 0 (Nat.le_refl _)
    (fun j hj => absurd hj (by omega)) (fun h0 => absurd rfl h0) (Nat.zero_le n) Shape_nil
  rcases hshape with ⟨ws, h1, h2, h3⟩ | ⟨ws, w, h1, h2, h3, h4⟩
  · rcases List.eq_nil_or_concat ws with hws | ⟨ws0, w0, hws⟩
    · left
      rw [hdata, h3, hws]
      rw [show wordsJoinA ([] : List (List Char)) = [] from rfl]
      rw [if_neg (by simp)]
    · right
      rw [List.concat_eq_append] at hws
      refine ⟨ws0, w0, ?_, ?_, ?_, ?_⟩
      · intro x hx
        exact h1 x (by rw [hws]; exact List.mem_append_left _ hx)
      · exact h1 w0 (by rw [hws]; simp)
      · rw [hws] at h2
        simp at h2
        omega
      · rw [hdata, h3, hws]
        have hne : wordsJoinA (ws0 ++ [w0]) ≠ [] := by
          rw [wordsJoinA_concat]
          simp
        rw [if_pos ⟨hne, wordsJoinA_getLastD ws0 w0 NUL⟩, wordsJoinA_dropLast]
  · right
    obtain ⟨w1, c, hw1⟩ : ∃ w1 c, w = w1 ++ [c] := by
      rcases List.eq_nil_or_concat w with hnil | ⟨w1, c, hwc⟩
      · exact absurd hnil h2.1
      · exact ⟨w1, c, by rw [hwc, List.concat_eq_append]⟩
    have hcgood : goodChar c = true := h2.2 c (by rw [hw1]; simp)
    have hlastne : (wordsJoinA ws ++ w).getLastD NUL ≠ ' ' := by
      rw [hw1, show wordsJoinA ws ++ (w1 ++ [c]) = (wordsJoinA ws ++ w1) ++ [c] from by simp,
        List.getLastD_concat]
      exact goodChar_ne_space hcgood
    refine ⟨ws, w, h1, h2, h3, ?_⟩
    rw [hdata, h4]
    rw [if_neg (by rintro ⟨-, hx⟩; exact hlastne hx)]

/-- The classifier on the empty buffer. -/
theorem findPfx_nil (n : Nat) : findPfx [] n = "" := rfl

/-- The classifier maps a flat list of good words to itself. -/
theorem findPfx_flat (n : Nat) (ws : List (List Char)) (hgood : ∀ w ∈ ws, goodWord w)
    (hne : ws ≠ []) (hcount : ws.length ≤ n) :
    findPfx (wordsFlat ws) n = String.mk (wordsFlat ws) := by
  have hres := fpLoop_rescan n ws [] 0 hgood hne (by omega)
  simp only [List.nil_append] at hres
  have h0 : findPfx (wordsFlat ws) n = String.mk
      (if fpLoop n (fpFuel (wordsFlat ws)) (wordsFlat ws) (wordsFlat ws).length 0 [] 0 ≠ [] ∧
          (fpLoop n (fpFuel (wordsFlat ws)) (wordsFlat ws) (wordsFlat ws).length 0
            [] 0).getLastD NUL = ' '
        then (fpLoop n (fpFuel (wordsFlat ws)) (wordsFlat ws) (wordsFlat ws).length 0
          [] 0).dropLast
        else fpLoop n (fpFuel (wordsFlat ws)) (wordsFlat ws) (wordsFlat ws).length 0 [] 0) :=
    rfl
  rw [h0, show fpFuel (wordsFlat ws) = 2 * (wordsFlat ws).length + 1 from rfl, hres]
  rcases List.eq_nil_or_concat ws with h | ⟨ws0, w0, hws⟩
  · exact absurd h hne
  · rw [List.concat_eq_append] at hws
    rw [hws]
    rw [if_pos ⟨by rw [wordsJoinA_concat]; simp, wordsJoinA_getLastD ws0 w0 NUL⟩]
    rw [wordsJoinA_dropLast, ← wordsFlat_concat]

theorem wordsFlat_eq_intercalate : ∀ ws : List (List Char),
    wordsFlat ws = [' '].intercalate ws
  | [] => by simp [wordsFlat, List.intercalate]
  | [w] => by simp [wordsFlat, List.intercalate]
  | w :: w2 :: t => by
    rw [show wordsFlat (w :: w2 :: t) = w ++ ' ' :: wordsFlat (w2 :: t) from rfl]
    rw [wordsFlat_eq_intercalate (w2 :: t)]
    simp [List.intercalate]

/-- Splitting a flat word list on spaces recovers the words. -/
theorem splitOn_wordsFlat (ws : List (List Char)) (hgood : ∀ w ∈ ws, goodWord w)
    (hne : ws ≠ []) : ((wordsFlat ws).splitOn ' ').length = ws.length := by
  rw [wordsFlat_eq_intercalate]
  rw [List.splitOn_intercalate ws ' '
    (by
      intro l hl hmem
      exact goodChar_ne_space ((hgood l hl).2 ' ' hmem) rfl) hne]

/-- C2 (confirmed): for every rune buffer and word limit n >= 1 the
prefix classifier is idempotent - rescanning its own output with the
same limit returns it unchanged - and the output splits on spaces into
at most n words. -/
theorem C2_findPfx_idem (r : List Char) (n : Nat) (hn : 1 ≤ n) :
    findPfx (findPfx r n).data n = findPfx r n ∧
    ((findPfx r n).data.splitOn ' ').length ≤ n := by
  rcases findPfx_form r n with hempty | ⟨ws, w, h1, h2, h3, h4⟩
  · have hfr : findPfx r n = "" := by
      refine String.ext ?_
      rw [hempty]
    constructor
    · rw [hempty, findPfx_nil, hfr]
    · rw [hempty, List.splitOn_nil]
      simpa using hn
  · have hflat : (findPfx r n).data = wordsFlat (ws ++ [w]) := by
      rw [h4, wordsFlat_concat]
    have hgood : ∀ x ∈ ws ++ [w], goodWord x := by
      intro x hx
      rcases List.mem_append.mp hx with hx | hx
      · exact h1 x hx
      · rw [List.mem_singleton.mp hx]
        exact h2
    have hcnt : (ws ++ [w]).length ≤ n := by
      simp
      omega
    constructor
    · rw [hflat, findPfx_flat n (ws ++ [w]) hgood (by simp) hcnt]
      exact congrArg String.mk hflat.symm
    · rw [hflat, splitOn_wordsFlat (ws ++ [w]) hgood (by simp)]
      simp
      omega

/-- C2 witness: the classifier output of `select * from t` with limit 6
is a fixed point and splits into at most six words. -/
theorem C2_findPfx_idem_witness :
    findPfx (findPfx ("select * from t".data) 6).data 6 =
      findPfx ("select * from t".data) 6 ∧
    ((findPfx ("select * from t".data) 6).data.splitOn ' ').length ≤ 6 :=
  C2_findPfx_idem ("select * from t".data) 6 (by omega)

end Gsmate
